import Mathlib

/-!
# Level-set utilities of ABLATE: a shallow embedding

Embedding of `src/levelSet/levelSetUtilities.cpp` (`VertexLevelSet_LS`,
`VertexLevelSet_VOF`, `VOF`, `checkSigns`, `Reinitialize`) and of
`Sphere::InsideGeometry` of `ablateLibrary/mathFunctions/geom/sphere.cpp`.

Modelling conventions

* `PetscReal`/`PetscScalar` are modelled by `ℚ` (exact arithmetic).  The source
  has no test before it divides by the interface measure; with a zero measure
  its doubles become infinite or NaN and the call goes on with them.  The exact
  model stops there with the outcome `Failure.nonFinite`.
* `PetscInt` counters (`lsIter`, `cutcellCount`, `currentCutCell`) only count up
  from zero by one per visited vertex or cell and are modelled by `Nat`.
* `while` loops take a fuel argument; running out of fuel is
  `Failure.outOfFuel`.
* A thrown `std::invalid_argument` is `Failure.invalidArgument`.
* The PETSc mesh queries are data: a cell carries its polytope type, its vertex
  coordinates, its centre and its vertices.  A vertex is named by its position
  in the vertex range (`reverseVertRange.GetIndex(vert) - vertRange.start`).
* Code that `levelSetUtilities.cpp` calls but that lives in other files
  (`LS-VOF.hpp` kernels, `Constants::small`, `NormVector`, `rbf->EvalDer`,
  `DMPlexCellGradFromVertex`) is a field of `Env`.
* What the specification says of `NormVector` (division by the Euclidean
  magnitude) is the definition `NormVectorWith`, generic in the scalars.  The
  magnitude of a rational vector need not be rational, so the theorems on unit
  length take it over the reals with `Real.sqrt` and compare the field
  `Env.NormVector` with it.
-/

namespace ablate.levelSet.Utilities

/-- PETSc cell shapes (`DMPolytopeType`). -/
inductive DMPolytopeType where
  | POINT
  | SEGMENT
  | POINT_PRISM_TENSOR
  | TRIANGLE
  | QUADRILATERAL
  | SEG_PRISM_TENSOR
  | TETRAHEDRON
  | HEXAHEDRON
  | TRI_PRISM
  | TRI_PRISM_TENSOR
  | QUAD_PRISM_TENSOR
  | PYRAMID
  | FV_GHOST
  | INTERIOR_GHOST
  | UNKNOWN
  deriving DecidableEq, Repr

/-- Ways in which a call does not return a value. -/
inductive Failure where
  /-- `std::invalid_argument` thrown by the topology dispatch. -/
  | invalidArgument
  /-- The source divides by a zero interface measure: its doubles are no longer
  finite, which exact arithmetic cannot follow.  Nothing is thrown by the source. -/
  | nonFinite
  /-- The loop did not finish within the fuel given to the model. -/
  | outOfFuel
  deriving DecidableEq, Repr

/-- What the mesh reports about one cell. -/
structure Cell where
  /-- The DMPlex point of the cell (`cellRange.GetPoint(c)`). -/
  point : Nat
  /-- Result of `DMPlexGetCellType`. -/
  ct : DMPolytopeType
  /-- Result of `DMPlexGetCellCoordinates`: `Nc` reals, vertex after vertex. -/
  coords : List ℚ
  /-- Centre from `DMPlexComputeCellGeometryFVM`. -/
  x0 : List ℚ
  /-- Result of `DMPlexCellGetVertices`, each vertex as its vertex-range position. -/
  verts : List Nat

/-- The kernels of `LS-VOF.hpp`: coordinates and vertex level-set values to
`(vof, area, vol)`. -/
structure Kernels where
  VOF_1D : List ℚ → List ℚ → ℚ × ℚ × ℚ
  VOF_2D_Tri : List ℚ → List ℚ → ℚ × ℚ × ℚ
  VOF_2D_Quad : List ℚ → List ℚ → ℚ × ℚ × ℚ
  VOF_3D_Tetra : List ℚ → List ℚ → ℚ × ℚ × ℚ
  VOF_3D_Hex : List ℚ → List ℚ → ℚ × ℚ × ℚ

/-- Inner loop of `VertexLevelSet_LS` (lines 130-133): start from `c0` and add
`n[j] * (coords[i * dim + j] - x0[j])` for `j = 0 .. dim - 1`. -/
def vertexValue (dim : Nat) (x0 coords n : List ℚ) (c0 : ℚ) (i : Nat) : ℚ :=
  (List.range dim).foldl
    (fun acc j => acc + n.getD j 0 * (coords.getD (i * dim + j) 0 - x0.getD j 0)) c0

/-- Level-set values at the vertices of a cell for a straight interface
(`VertexLevelSet_LS`, lines 105-137).  `c` is the caller's buffer; `none` is the
`*c == NULL` case, in which `nVerts` entries are allocated. -/
def VertexLevelSet_LS (dim : Nat) (cell : Cell) (c0 : ℚ) (n : List ℚ)
    (c : Option (List ℚ)) : List ℚ :=
  let nVerts := cell.coords.length / dim
  let buf := match c with
    | none => List.replicate nVerts 0
    | some b => b
  (List.range nVerts).foldl
    (fun b i => b.set i (vertexValue dim cell.x0 cell.coords n c0 i)) buf

/-- Topology dispatch `VOF(dm, p, c, vof, area, vol)` (lines 180-213). -/
def VOF (K : Kernels) (cell : Cell) (c : List ℚ) : Except Failure (ℚ × ℚ × ℚ) :=
  match cell.ct with
  | .SEGMENT => .ok (K.VOF_1D cell.coords c)
  | .TRIANGLE => .ok (K.VOF_2D_Tri cell.coords c)
  | .QUADRILATERAL => .ok (K.VOF_2D_Quad cell.coords c)
  | .TETRAHEDRON => .ok (K.VOF_3D_Tetra cell.coords c)
  | .HEXAHEDRON => .ok (K.VOF_3D_Hex cell.coords c)
  | _ => .error .invalidArgument

/-- The tolerance `tol = 1e-8` of `VertexLevelSet_VOF`. -/
def tol : ℚ := 1 / 10 ^ 8

/-- The loop `for (i = 0; i < nv; ++i) (*c)[i] -= offset;` (lines 168-170). -/
def shiftVertices (nv : Nat) (offset : ℚ) (c : List ℚ) : List ℚ :=
  (List.range nv).foldl (fun b i => b.set i (b.getD i 0 - offset)) c

/-- The `while (fabs(vofError) > tol)` loop of `VertexLevelSet_VOF`
(lines 161-174). -/
def solveLoop (K : Kernels) (cell : Cell) (targetVOF cellVolume : ℚ) (nv : Nat) :
    Nat → ℚ → ℚ → List ℚ → Except Failure (List ℚ)
  | fuel, vofError, area, c =>
    if |vofError| > tol then
      match fuel with
      | 0 => .error .outOfFuel
      | fuel + 1 =>
        if area = 0 then .error .nonFinite
        else
          let offset := vofError * cellVolume / area
          let offset := offset * (1 / 2)
          let c := shiftVertices nv offset c
          match VOF K cell c with
          | .error e => .error e
          | .ok (vof, area, _) =>
            solveLoop K cell targetVOF cellVolume nv fuel (targetVOF - vof) area c
    else .ok c

/-- Level-set values at the vertices of a cell that reproduce `targetVOF` for a
given normal (`VertexLevelSet_VOF`, lines 140-175). -/
def VertexLevelSet_VOF (K : Kernels) (dim : Nat) (cell : Cell) (targetVOF : ℚ)
    (n : List ℚ) (c : Option (List ℚ)) (fuel : Nat) : Except Failure (List ℚ) :=
  let nv := cell.verts.length
  let c := VertexLevelSet_LS dim cell 0 n c
  match VOF K cell c with
  | .error e => .error e
  | .ok (vof, area, cellVolume) =>
    solveLoop K cell targetVOF cellVolume nv fuel (targetVOF - vof) area c

/-- Code that `Reinitialize` consumes from other files. -/
structure Env where
  /-- The constant `ablate::utilities::Constants::small`. -/
  small : ℚ
  /-- The kernels of `LS-VOF.hpp`. -/
  K : Kernels
  /-- The call `rbf->EvalDer(vofField, cell, dx, dy, dz)`. -/
  EvalDer : Nat → Nat → Nat → Nat → ℚ
  /-- The call `MathUtilities::NormVector(dim, n)`, as the new content of `n`. -/
  NormVector : Nat → List ℚ → List ℚ
  /-- The call `DMPlexCellGradFromVertex(lsDM, cell, lsVec, lsID, 0, g)`, as `g`. -/
  DMPlexCellGradFromVertex : Nat → (Nat → ℚ) → List ℚ

/-- The part of the sub-domain that `Reinitialize` reads. -/
structure Mesh where
  /-- Result of `subDomain->GetDimensions()`. -/
  dim : Nat
  /-- The cells of `cellRange`, in range order. -/
  cells : List Cell
  /-- The number of vertices, `vertRange.end - vertRange.start`. -/
  nVert : Nat

/-- The variables that the sweeps of `Reinitialize` write. -/
structure State where
  /-- The level-set field at the vertices (`lsArray` read through `lsVal`). -/
  lsArray : Nat → ℚ
  /-- The contribution counters `lsIter`. -/
  lsIter : Nat → Nat
  /-- The scratch array `vertMask`. -/
  vertMask : Nat → Int
  /-- The scratch array `cellMask`. -/
  cellMask : Nat → Int
  /-- The number of cut cells seen by the first sweep. -/
  cutcellCount : Nat

/-- The largest finite double, `PETSC_MAX_REAL`. -/
def PETSC_MAX_REAL : ℚ := 2 ^ 1024 - 2 ^ 971

/-- The test `(*vofVal > small) && (*vofVal < 1.0 - small)` of lines 399, 522
and 549. -/
def isCutCell (small vofVal : ℚ) : Bool :=
  decide (vofVal > small) && decide (vofVal < 1 - small)

/-- The "approach 3" block (lines 450-457 and 577-584) on the values it reads:
`*lsVal`, `lsIter[vert_i]` and `lsVertVals[v]`; it gives the new `*lsVal` and
`lsIter[vert_i]`. -/
def approach3 (lsVal : ℚ) (lsIter : Nat) (lsVertVal : ℚ) : ℚ × Nat :=
  if lsIter = 0 then (lsVertVal, lsIter + 1)
  else ((lsVertVal + lsVal * lsIter) / (lsIter + 1), lsIter + 1)

/-- Body of the vertex loop (lines 426-457 and 568-584): mark the vertex and
fold `lsVertVal` into it. -/
def mergeVertex (st : State) (vert_i : Nat) (lsVertVal : ℚ) : State :=
  let r := approach3 (st.lsArray vert_i) (st.lsIter vert_i) lsVertVal
  { st with
    vertMask := Function.update st.vertMask vert_i 0
    lsArray := Function.update st.lsArray vert_i r.1
    lsIter := Function.update st.lsIter vert_i r.2 }

/-- The loop `for (PetscInt v = 0; v < nv; ++v)` over the vertices of one cut
cell (lines 423-494 and 565-587). -/
def mergeCell (verts : List Nat) (lsVertVals : List ℚ) (st : State) : State :=
  (List.range verts.length).foldl
    (fun st v => mergeVertex st (verts.getD v 0) (lsVertVals.getD v 0)) st

/-- Unit normal estimate of the first sweep (lines 405-409). -/
def initialNormal (E : Env) (dim : Nat) (cell : Cell) : List ℚ :=
  E.NormVector dim
    [-(E.EvalDer cell.point 1 0 0), -(E.EvalDer cell.point 0 1 0),
     -(if dim = 3 then E.EvalDer cell.point 0 0 1 else 0)]

/-- Body of the first cell loop (lines 393-499) for the cell at range position
`c`.  The work array handed to `VertexLevelSet_VOF` has `nv` entries. -/
def initialCell (E : Env) (M : Mesh) (vofArray : Nat → ℚ) (fuel : Nat) (c : Nat)
    (cell : Cell) (st : State) : Except Failure State :=
  let vofVal := vofArray cell.point
  if isCutCell E.small vofVal then
    let st := { st with
      cellMask := Function.update st.cellMask c 0
      cutcellCount := st.cutcellCount + 1 }
    let n := initialNormal E M.dim cell
    let nv := cell.verts.length
    match VertexLevelSet_VOF E.K M.dim cell vofVal n (some (List.replicate nv 0)) fuel with
    | .error e => .error e
    | .ok lsVertVals => .ok (mergeCell cell.verts lsVertVals st)
  else .ok st

/-- The first cell loop (lines 392-500), from range position `c` on. -/
def initialPass (E : Env) (M : Mesh) (vofArray : Nat → ℚ) (fuel : Nat) :
    Nat → List Cell → State → Except Failure State
  | _, [], st => .ok st
  | c, cell :: rest, st =>
    match initialCell E M vofArray fuel c cell st with
    | .error e => .error e
    | .ok st' => initialPass E M vofArray fuel (c + 1) rest st'

/-- The call `std::copy(n_new, n_new + dim, &normal[currentCutCell*dim])`
(line 532). -/
def copyNormal (dim : Nat) (n_new : List ℚ) (currentCutCell : Nat) (normal : List ℚ) :
    List ℚ :=
  (List.range dim).foldl
    (fun b j => b.set (currentCutCell * dim + j) (n_new.getD j 0)) normal

/-- The call `std::copy(&normal[currentCutCell*dim], &normal[(currentCutCell+1)*dim], n_new)`
(line 561). -/
def readNormal (dim : Nat) (normal : List ℚ) (currentCutCell : Nat) : List ℚ :=
  (List.range dim).map (fun j => normal.getD (currentCutCell * dim + j) 0)

/-- The sweep that recomputes the unit normals (lines 515-536), from range
position `c` on; it carries `normal` and `currentCutCell`. -/
def normalSweep (E : Env) (M : Mesh) (vofArray : Nat → ℚ) :
    Nat → List Cell → State → List ℚ → Nat → State × List ℚ × Nat
  | _, [], st, normal, currentCutCell => (st, normal, currentCutCell)
  | c, cell :: rest, st, normal, currentCutCell =>
    let vofVal := vofArray cell.point
    if isCutCell E.small vofVal then
      let st := { st with cellMask := Function.update st.cellMask c 0 }
      let n_new := E.DMPlexCellGradFromVertex cell.point st.lsArray
      let n_new := E.NormVector M.dim n_new
      let normal := copyNormal M.dim n_new currentCutCell normal
      normalSweep E M vofArray (c + 1) rest st normal (currentCutCell + 1)
    else normalSweep E M vofArray (c + 1) rest st normal currentCutCell

/-- Body of the re-solve loop (lines 543-591) for the cell at range position
`c`; it carries `currentCutCell`. -/
def resolveCell (E : Env) (M : Mesh) (vofArray : Nat → ℚ) (fuel : Nat)
    (normal : List ℚ) (c : Nat) (cell : Cell) (currentCutCell : Nat) (st : State) :
    Except Failure (State × Nat) :=
  let vofVal := vofArray cell.point
  if isCutCell E.small vofVal then
    let st := { st with cellMask := Function.update st.cellMask c 0 }
    let nv := cell.verts.length
    let n_new := readNormal M.dim normal currentCutCell
    match VertexLevelSet_VOF E.K M.dim cell vofVal n_new (some (List.replicate nv 0)) fuel with
    | .error e => .error e
    | .ok lsVertVals => .ok (mergeCell cell.verts lsVertVals st, currentCutCell + 1)
  else .ok (st, currentCutCell)

/-- The re-solve loop (lines 542-592), from range position `c` on. -/
def resolveSweep (E : Env) (M : Mesh) (vofArray : Nat → ℚ) (fuel : Nat)
    (normal : List ℚ) : Nat → List Cell → Nat → State → Except Failure (State × Nat)
  | _, [], currentCutCell, st => .ok (st, currentCutCell)
  | c, cell :: rest, currentCutCell, st =>
    match resolveCell E M vofArray fuel normal c cell currentCutCell st with
    | .error e => .error e
    | .ok (st', k) => resolveSweep E M vofArray fuel normal (c + 1) rest k st'

/-- One pass of the `while` loop up to the convergence check (lines 512-592):
the buffer `normal` has `dim*cutcellCount` entries and `lsIter` starts from
zeros. -/
def loopPass (E : Env) (M : Mesh) (vofArray : Nat → ℚ) (fuel : Nat) (st : State) :
    Except Failure State :=
  let normal := List.replicate (M.dim * st.cutcellCount) (0 : ℚ)
  let r := normalSweep E M vofArray 0 M.cells st normal 0
  let st := { r.1 with lsIter := fun _ => 0 }
  match resolveSweep E M vofArray fuel r.2.1 0 M.cells 0 st with
  | .error e => .error e
  | .ok (st', _) => .ok st'

/-- The call `VecNorm(w, NORM_INFINITY, &maxError)` over the vertex entries. -/
def VecNormInfinity (nVert : Nat) (w : Nat → ℚ) : ℚ :=
  (List.range nVert).foldl (fun m v => max m |w v|) 0

/-- The call `VecWAXPY(ls_diff, -1.0, lsVec, ls_oldVal)` followed by the
infinity norm (lines 596-597). -/
def maxErrorOf (nVert : Nat) (lsVec ls_oldVal : Nat → ℚ) : ℚ :=
  VecNormInfinity nVert (fun v => -1 * lsVec v + ls_oldVal v)

/-- The loop `while (maxError > 1e-6)` (lines 509-604); `passes` is the fuel.
The counter `i` of the source is only printed and is left out. -/
def whileLoop (E : Env) (M : Mesh) (vofArray : Nat → ℚ) (fuel : Nat) :
    Nat → ℚ → (Nat → ℚ) → State → Except Failure State
  | passes, maxError, ls_oldVal, st =>
    if maxError > 1 / 10 ^ 6 then
      match passes with
      | 0 => .error .outOfFuel
      | passes + 1 =>
        match loopPass E M vofArray fuel st with
        | .error e => .error e
        | .ok st' =>
          whileLoop E M vofArray fuel passes (maxErrorOf M.nVert st'.lsArray ls_oldVal)
            st'.lsArray st'
    else .ok st

/-- State after the initialisation of lines 370-390: masks at `-1`, every vertex
of the range at `PETSC_MAX_REAL`, counters at zero. -/
def initState (M : Mesh) (lsArray : Nat → ℚ) : State :=
  { lsArray := fun v => if v < M.nVert then PETSC_MAX_REAL else lsArray v
    lsIter := fun _ => 0
    vertMask := fun _ => -1
    cellMask := fun _ => -1
    cutcellCount := 0 }

/-- The function `Reinitialize` (lines 339-792): `lsArray` is the level-set
field on entry, `fuel` bounds each cell solve and `passes` the `while` loop. -/
def Reinitialize (E : Env) (M : Mesh) (vofArray : Nat → ℚ) (lsArray : Nat → ℚ)
    (fuel passes : Nat) : Except Failure State :=
  match initialPass E M vofArray fuel 0 M.cells (initState M lsArray) with
  | .error e => .error e
  | .ok st => whileLoop E M vofArray fuel passes 1 st.lsArray st

/-- The five case labels of the `switch (ct)` in `VOF` (lines 193-207). -/
def isSupported : DMPolytopeType → Bool
  | .SEGMENT => true
  | .TRIANGLE => true
  | .QUADRILATERAL => true
  | .TETRAHEDRON => true
  | .HEXAHEDRON => true
  | _ => false

/-! ### Definitions used to state the pass-local average

These follow the wording of the specification ("the values that this pass's
per-cell solves produced for the vertex in its incident cut cells"); the
theorems compare them with the sweeps above. -/

/-- The pairs `(verts[v], lsVertVals[v])`, `v = 0 .. nv - 1`, of one solved cell. -/
def cellPairs (verts : List Nat) (lsVertVals : List ℚ) : List (Nat × ℚ) :=
  (List.range verts.length).map (fun v => (verts.getD v 0, lsVertVals.getD v 0))

/-- The values that one solved cell holds for the vertex `w`. -/
def cellContributions (w : Nat) (verts : List Nat) (lsVertVals : List ℚ) : List ℚ :=
  ((cellPairs verts lsVertVals).filter (fun p => p.1 = w)).map Prod.snd

/-- The number of cut cells among `cells` that are incident to the vertex `w`. -/
def incidentCutCells (E : Env) (vofArray : Nat → ℚ) (w : Nat) (cells : List Cell) : Nat :=
  cells.countP (fun cell => isCutCell E.small (vofArray cell.point) && decide (w ∈ cell.verts))

/-- The values for the vertex `w` produced by the solves of the first pass in the
cut cells among `cells`, each solved with the normal from the VOF gradient. -/
def initialContributions (E : Env) (M : Mesh) (vofArray : Nat → ℚ) (fuel : Nat) (w : Nat) :
    List Cell → List ℚ
  | [] => []
  | cell :: rest =>
    (if isCutCell E.small (vofArray cell.point) then
      match VertexLevelSet_VOF E.K M.dim cell (vofArray cell.point)
          (initialNormal E M.dim cell) (some (List.replicate cell.verts.length 0)) fuel with
      | .ok lsVertVals => cellContributions w cell.verts lsVertVals
      | .error _ => []
    else []) ++ initialContributions E M vofArray fuel w rest

/-- The values for the vertex `w` produced by the solves of a loop pass in the
cut cells among `cells`, the `k`-th cut cell solved with the `k`-th normal of
the buffer `normal`. -/
def resolveContributions (E : Env) (M : Mesh) (vofArray : Nat → ℚ) (fuel : Nat)
    (normal : List ℚ) (w : Nat) : Nat → List Cell → List ℚ
  | _, [] => []
  | k, cell :: rest =>
    if isCutCell E.small (vofArray cell.point) then
      (match VertexLevelSet_VOF E.K M.dim cell (vofArray cell.point)
          (readNormal M.dim normal k) (some (List.replicate cell.verts.length 0)) fuel with
        | .ok lsVertVals => cellContributions w cell.verts lsVertVals
        | .error _ => []) ++ resolveContributions E M vofArray fuel normal w (k + 1) rest
    else resolveContributions E M vofArray fuel normal w k rest

/-- The normal buffer that a loop pass starting in the state `st` fills. -/
def passNormals (E : Env) (M : Mesh) (vofArray : Nat → ℚ) (st : State) : List ℚ :=
  (normalSweep E M vofArray 0 M.cells st (List.replicate (M.dim * st.cutcellCount) 0) 0).2.1

/-! ### Definitions used to state the planarity of the solver output -/

/-- The offsets that the loop of `VertexLevelSet_VOF` subtracts, in the order of
the iterations. -/
def solveOffsets (K : Kernels) (cell : Cell) (targetVOF cellVolume : ℚ) (nv : Nat) :
    Nat → ℚ → ℚ → List ℚ → List ℚ
  | fuel, vofError, area, cur =>
    if |vofError| > tol then
      match fuel with
      | 0 => []
      | fuel + 1 =>
        if area = 0 then []
        else
          let offset := vofError * cellVolume / area * (1 / 2)
          let cur := shiftVertices nv offset cur
          match VOF K cell cur with
          | .error _ => [offset]
          | .ok (vof, area, _) =>
            offset :: solveOffsets K cell targetVOF cellVolume nv fuel (targetVOF - vof) area cur
    else []

/-- The offsets that a call of `VertexLevelSet_VOF` subtracts. -/
def appliedOffsets (K : Kernels) (dim : Nat) (cell : Cell) (targetVOF : ℚ) (n : List ℚ)
    (buf : Option (List ℚ)) (fuel : Nat) : List ℚ :=
  match VOF K cell (VertexLevelSet_LS dim cell 0 n buf) with
  | .error _ => []
  | .ok (vof, area, cellVolume) =>
    solveOffsets K cell targetVOF cellVolume cell.verts.length fuel (targetVOF - vof) area
      (VertexLevelSet_LS dim cell 0 n buf)

/-! ### Definitions for the normal estimate, the zero interface measure and the sign check -/

/-- The function `checkSigns` (lines 327-331), as the condition under which it
prints "Error: Different signs for shared vertex."  Its only calls are in the
merge alternatives that are commented out (lines 433 and 442). -/
def checkSigns (existingVal newVal : ℚ) : Bool :=
  decide (existingVal ≠ PETSC_MAX_REAL) &&
    (decide (existingVal > 0 ∧ newVal < 0) || decide (existingVal < 0 ∧ newVal > 0))

/-- The number of cut cells among `cells`. -/
def cutCount (E : Env) (vofArray : Nat → ℚ) (cells : List Cell) : Nat :=
  cells.countP (fun cell => isCutCell E.small (vofArray cell.point))

/-! ### Definitions used to state the re-estimation of the normals

These follow the wording of the specification: in a loop pass every cut cell is
re-solved with the normalised gradient of the level-set field "exactly as the
previous pass left it".  No normal buffer and no `currentCutCell` appear in
them; the theorems compare them with `loopPass`, `whileLoop` and
`Reinitialize`. -/

end ablate.levelSet.Utilities

namespace ablate.mathFunctions.geom

/-- The members `center` and `radius` of the class `Sphere` (sphere.cpp, lines
3-8). -/
structure Sphere where
  center : List ℚ
  radius : ℚ

/-- The cast `(std::size_t)ndims` of an `int` to a 64-bit `size_t`. -/
def sizeOfInt (ndims : Int) : Nat := (ndims % 2 ^ 64).toNat

/-- The test `PetscSqrtReal(dist) <= radius` (lines 15-17) in exact arithmetic:
the square root of `dist` is at most `radius` exactly when `radius` is not
negative and `dist <= radius^2`; the theorem `sqrtLe_iff` compares this with the
real square root. -/
def sqrtLe (dist radius : ℚ) : Bool :=
  decide (0 ≤ radius) && decide (dist ≤ radius ^ 2)

/-- The method `Sphere::InsideGeometry(xyz, ndims, time)` (lines 10-18); the
third argument is not read. -/
def Sphere.InsideGeometry (S : Sphere) (xyz : List ℚ) (ndims : Int) : Bool :=
  let dist := (List.range (min (sizeOfInt ndims) S.center.length)).foldl
    (fun dist i => dist + (xyz.getD i 0 - S.center.getD i 0) ^ 2) 0
  sqrtLe dist S.radius

end ablate.mathFunctions.geom

namespace ablate.levelSet.Utilities

/-! ### A one-dimensional instance

Concrete values for the parameters of `Env`, used to evaluate the embedding on a
mesh of three segments `[0, 1]`, `[1, 5]` and `[5, 6]` with the vertices
`0, 1, 2, 3` at `x = 0, 1, 5, 6`. -/

/-- A kernel for a segment with the vertex values `c = [ca, cb]`: the fraction
of the segment on which the linear interpolant is negative, interface measure
`1` and the length of the segment. -/
def segmentKernel (coords c : List ℚ) : ℚ × ℚ × ℚ :=
  let ca := c.getD 0 0
  let cb := c.getD 1 0
  let vof : ℚ :=
    if ca < 0 ∧ cb < 0 then 1
    else if 0 ≤ ca ∧ 0 ≤ cb then 0
    else if ca < 0 then ca / (ca - cb)
    else cb / (cb - ca)
  (vof, 1, |coords.getD 1 0 - coords.getD 0 0|)

/-- The segment kernel in all five places. -/
def segmentKernels : Kernels :=
  ⟨segmentKernel, segmentKernel, segmentKernel, segmentKernel, segmentKernel⟩

/-- An environment for one-dimensional meshes: `small = 1e-10`, a VOF gradient
of `-1` along `x`, normalisation of the first component, and the gradient of
the level set over the two segments. -/
def lineEnv : Env :=
  { small := 1 / 10 ^ 10
    K := segmentKernels
    EvalDer := fun _ dx _ _ => if dx = 1 then -1 else 0
    NormVector := fun _ n => n.modifyHead (fun x => x / |x|)
    DMPlexCellGradFromVertex := fun cell ls =>
      if cell = 0 then [(ls 1 - ls 0) / 1] else [(ls 2 - ls 1) / 4] }

/-- The segment `[0, 1]` with the vertices `0` and `1`. -/
def cellA : Cell := ⟨0, .SEGMENT, [0, 1], [1 / 2], [0, 1]⟩

/-- The segment `[1, 5]` with the vertices `1` and `2`. -/
def cellB : Cell := ⟨1, .SEGMENT, [1, 5], [3], [1, 2]⟩

/-- The segment `[5, 6]` with the vertices `2` and `3`. -/
def cellC : Cell := ⟨2, .SEGMENT, [5, 6], [11 / 2], [2, 3]⟩

/-- The mesh of the three segments. -/
def lineMesh : Mesh := ⟨1, [cellA, cellB, cellC], 4⟩

/-- The VOF field: `1/2` in the first two cells, `1` in the third. -/
def lineVof : Nat → ℚ := fun cell => if cell = 2 then 1 else 1 / 2

/-- A pyramid, which `VOF` has no kernel for, over the vertices `0 .. 4`. -/
def cellP : Cell :=
  ⟨0, .PYRAMID, [0, 0, 0, 1, 0, 0, 1, 1, 0, 0, 1, 0, 1 / 2, 1 / 2, 1],
    [1 / 2, 1 / 2, 1 / 4], [0, 1, 2, 3, 4]⟩

/-- The mesh of the single pyramid. -/
def pyramidMesh : Mesh := ⟨3, [cellP], 5⟩

/-- The line environment with a gradient operator that gives the slope over
the first segment with the opposite sign. -/
def flipEnv : Env :=
  { lineEnv with DMPlexCellGradFromVertex := fun _ ls => [-((ls 1 - ls 0) / 1)] }

/-- The mesh of the segment `[0, 1]` alone. -/
def segmentMesh : Mesh := ⟨1, [cellA], 2⟩

/-- Kernels that report no reference phase and no interface in the cell:
`vof = 0`, interface measure `0`, cell measure `1`. -/
def flatKernels : Kernels :=
  ⟨fun _ _ => (0, 0, 1), fun _ _ => (0, 0, 1), fun _ _ => (0, 0, 1), fun _ _ => (0, 0, 1),
    fun _ _ => (0, 0, 1)⟩

/-- Accumulating `f 0, f 1, ...` onto `c0` gives `c0` plus the finite sum. -/
theorem foldl_add_eq_sum (f : Nat → ℚ) (c0 : ℚ) (d : Nat) :
    (List.range d).foldl (fun acc j => acc + f j) c0 = c0 + ∑ j in Finset.range d, f j := by
  induction d with
  | zero => simp
  | succ d ih =>
    rw [List.range_succ, List.foldl_append, ih, Finset.sum_range_succ]
    simp [add_assoc]

/-- Writing `g i` at every index `i < m` of a buffer keeps its length. -/
theorem length_foldl_set (g : Nat → ℚ) (m : Nat) (buf : List ℚ) :
    ((List.range m).foldl (fun b i => b.set i (g i)) buf).length = buf.length := by
  induction m with
  | zero => simp
  | succ m ih => rw [List.range_succ, List.foldl_append]; simp [ih]

/-- Writing `g i` at every index `i < m` of a buffer: the entry read back at an
index below `m` that the buffer has is `g i`, every other entry is unchanged. -/
theorem getElem?_foldl_set (g : Nat → ℚ) (m : Nat) (buf : List ℚ) (i : Nat) :
    ((List.range m).foldl (fun b i => b.set i (g i)) buf)[i]? =
      if i < m ∧ i < buf.length then some (g i) else buf[i]? := by
  induction m with
  | zero => simp
  | succ m ih =>
    rw [List.range_succ, List.foldl_append]
    simp only [List.foldl_cons, List.foldl_nil]
    rw [List.getElem?_set, length_foldl_set]
    by_cases h : m = i
    · subst h
      by_cases hb : m < buf.length
      · simp [hb]
      · simp only [hb, and_false, if_false, ih]
        simp [Nat.le_of_not_lt hb]
    · simp only [h, if_false, ih]
      have : (i < m + 1) ↔ (i < m) := by omega
      simp [this]

/-- C1. `VertexLevelSet_LS` writes, for every vertex `i < nVerts` of the cell,
the value `c0 + Σ_{j < dim} n[j] * (coords[i*dim + j] - x0[j])`; the buffer is
either allocated by the call or has room for `nVerts` entries. -/
theorem VertexLevelSet_LS_value (dim : Nat) (cell : Cell) (c0 : ℚ) (n : List ℚ)
    (c : Option (List ℚ)) (i : Nat) (hi : i < cell.coords.length / dim)
    (hc : ∀ b, c = some b → cell.coords.length / dim ≤ b.length) :
    (VertexLevelSet_LS dim cell c0 n c)[i]? =
      some (c0 + ∑ j in Finset.range dim,
        n.getD j 0 * (cell.coords.getD (i * dim + j) 0 - cell.x0.getD j 0)) := by
  unfold VertexLevelSet_LS
  simp only []
  rw [getElem?_foldl_set]
  have hlen : i < (match c with
      | none => List.replicate (cell.coords.length / dim) (0 : ℚ)
      | some b => b).length := by
    cases c with
    | none => simpa using hi
    | some b => exact lt_of_lt_of_le hi (hc b rfl)
  rw [if_pos ⟨hi, hlen⟩]
  simp only [vertexValue]
  rw [foldl_add_eq_sum]

/-- Witness for C1: the unit square centred at `(1/2, 1/2)`, `c0 = 1/4`,
normal `(1, 0)`, third vertex `(1, 1)`. -/
theorem VertexLevelSet_LS_value_witness :
    2 < ([0, 0, 1, 0, 1, 1, 0, 1] : List ℚ).length / 2 ∧
    (VertexLevelSet_LS 2 ⟨0, .QUADRILATERAL, [0, 0, 1, 0, 1, 1, 0, 1], [1/2, 1/2], [0, 1, 2, 3]⟩
        (1/4) [1, 0] none)[2]? =
      some ((1/4 : ℚ) + ∑ j in Finset.range 2,
        ([1, 0] : List ℚ).getD j 0 *
          (([0, 0, 1, 0, 1, 1, 0, 1] : List ℚ).getD (2 * 2 + j) 0 -
            ([1/2, 1/2] : List ℚ).getD j 0)) :=
  ⟨by decide,
   VertexLevelSet_LS_value 2
    ⟨0, .QUADRILATERAL, [0, 0, 1, 0, 1, 1, 0, 1], [1/2, 1/2], [0, 1, 2, 3]⟩
    (1/4) [1, 0] none 2 (by decide) (by intro b h; cases h)⟩

/-- C2. The merge step at vertex `v` with new value `x`: the vertex gets `x` when
its counter was `0` and `(x + LevelSet[v] * counter[v]) / (counter[v] + 1)`
otherwise, its counter goes up by one (to `1` from `0`), and the level-set
value and the counter of every other vertex are unchanged. -/
theorem mergeVertex_spec (st : State) (v : Nat) (x : ℚ) :
    (∀ w, (mergeVertex st v x).lsArray w =
      if w = v then
        (if st.lsIter v = 0 then x
         else (x + st.lsArray v * st.lsIter v) / (st.lsIter v + 1))
      else st.lsArray w) ∧
    (∀ w, (mergeVertex st v x).lsIter w =
      if w = v then (if st.lsIter v = 0 then 1 else st.lsIter v + 1)
      else st.lsIter w) := by
  constructor
  · intro w
    by_cases hw : w = v
    · subst hw
      by_cases h0 : st.lsIter w = 0 <;> simp [mergeVertex, approach3, h0]
    · simp [mergeVertex, Function.update_noteq hw, hw]
  · intro w
    by_cases hw : w = v
    · subst hw
      by_cases h0 : st.lsIter w = 0 <;> simp [mergeVertex, approach3, h0]
    · simp [mergeVertex, Function.update_noteq hw, hw]

/-- Folding values into a mean that already counts `cnt > 0` samples. -/
theorem approach3_foldl_pos (xs : List ℚ) (val : ℚ) (cnt : Nat) (h : 0 < cnt) :
    xs.foldl (fun p x => approach3 p.1 p.2 x) (val, cnt) =
      ((val * cnt + xs.sum) / (cnt + xs.length), cnt + xs.length) := by
  induction xs generalizing val cnt with
  | nil =>
    have hc : (cnt : ℚ) ≠ 0 := by exact_mod_cast (Nat.pos_iff_ne_zero.mp h)
    simp [hc]
  | cons x t ih =>
    have hc : cnt ≠ 0 := Nat.pos_iff_ne_zero.mp h
    have hq : (cnt : ℚ) + 1 ≠ 0 := by positivity
    have e : approach3 val cnt x = ((x + val * cnt) / (cnt + 1), cnt + 1) := by
      simp [approach3, hc]
    rw [List.foldl_cons]
    show List.foldl (fun p x => approach3 p.1 p.2 x) (approach3 val cnt x) t = _
    rw [e, ih _ _ (Nat.succ_pos cnt)]
    simp only [List.sum_cons, List.length_cons, Nat.cast_add, Nat.cast_one, Nat.cast_succ]
    refine Prod.ext ?_ ?_
    · simp only
      rw [div_mul_cancel₀ _ hq]
      ring_nf
    · simp only
      omega

/-- Folding a non-empty list of values into a vertex whose counter is `0`. -/
theorem approach3_foldl_zero (x : ℚ) (t : List ℚ) (val : ℚ) :
    (x :: t).foldl (fun p x => approach3 p.1 p.2 x) (val, 0) =
      ((x :: t).sum / ((x :: t).length : ℕ), (x :: t).length) := by
  have e : approach3 val 0 x = (x, 0 + 1) := by simp [approach3]
  rw [List.foldl_cons]
  show List.foldl (fun p x => approach3 p.1 p.2 x) (approach3 val 0 x) t = _
  rw [e, approach3_foldl_pos t x (0 + 1) (by norm_num)]
  refine Prod.ext ?_ ?_
  · simp only [List.sum_cons, List.length_cons, Nat.cast_add, Nat.cast_one]
    norm_num
    ring
  · simp only [List.length_cons]
    omega

/-- A run of merges, seen from one vertex `w`: only the merges aimed at `w`
matter, and they act on its value and counter as `approach3`. -/
theorem foldl_mergeVertex_at (ps : List (Nat × ℚ)) (st : State) (w : Nat) :
    ((ps.foldl (fun st p => mergeVertex st p.1 p.2) st).lsArray w,
     (ps.foldl (fun st p => mergeVertex st p.1 p.2) st).lsIter w) =
      ((ps.filter (fun p => p.1 = w)).map Prod.snd).foldl
        (fun p x => approach3 p.1 p.2 x) (st.lsArray w, st.lsIter w) := by
  induction ps generalizing st with
  | nil => simp
  | cons p t ih =>
    simp only [List.foldl_cons]
    rw [ih]
    by_cases hp : p.1 = w
    · subst hp
      simp [List.filter_cons, mergeVertex]
    · have hw : w ≠ p.1 := fun h => hp h.symm
      simp [List.filter_cons, hp, mergeVertex, Function.update_noteq hw]

/-- Merging the values `xs`, one after the other, into the vertex `v`. -/
theorem foldl_mergeVertex_single (xs : List ℚ) (st : State) (v : Nat) :
    ((xs.foldl (fun st x => mergeVertex st v x) st).lsArray v,
     (xs.foldl (fun st x => mergeVertex st v x) st).lsIter v) =
      xs.foldl (fun p x => approach3 p.1 p.2 x) (st.lsArray v, st.lsIter v) := by
  induction xs generalizing st with
  | nil => simp
  | cons x t ih =>
    simp only [List.foldl_cons]
    rw [ih]
    simp [mergeVertex]

/-- C3. Running mean: merging a non-empty sequence `xs` of contributions into a
vertex `v` whose counter is `0`, whatever value it holds, leaves `v` with the
arithmetic mean `xs.sum / xs.length` and the counter `xs.length`. -/
theorem running_mean (st : State) (v : Nat) (xs : List ℚ) (h0 : st.lsIter v = 0)
    (hne : xs ≠ []) :
    (xs.foldl (fun st x => mergeVertex st v x) st).lsArray v = xs.sum / (xs.length : ℕ) ∧
    (xs.foldl (fun st x => mergeVertex st v x) st).lsIter v = xs.length := by
  have h := foldl_mergeVertex_single xs st v
  cases xs with
  | nil => exact absurd rfl hne
  | cons x t =>
    rw [h0, approach3_foldl_zero] at h
    exact ⟨congrArg Prod.fst h, congrArg Prod.snd h⟩

/-- Witness for C3: the contributions `1, 2, 6` merged into vertex `0`, which
holds the sentinel, give the mean `3` and the counter `3`. -/
theorem running_mean_witness :
    ((([1, 2, 6] : List ℚ).foldl (fun st x => mergeVertex st 0 x)
        (initState ⟨2, [], 4⟩ (fun _ => 0))).lsArray 0 =
        ([1, 2, 6] : List ℚ).sum / (([1, 2, 6] : List ℚ).length : ℕ)) ∧
    ((([1, 2, 6] : List ℚ).foldl (fun st x => mergeVertex st 0 x)
        (initState ⟨2, [], 4⟩ (fun _ => 0))).lsIter 0 = ([1, 2, 6] : List ℚ).length) :=
  running_mean (initState ⟨2, [], 4⟩ (fun _ => 0)) 0 [1, 2, 6] rfl (by simp)

/-- C4. Order independence: merging a list of contributions and merging any
permutation of it into a vertex whose counter is `0` give the same value and
the same counter at that vertex. -/
theorem merge_perm (st : State) (v : Nat) (xs ys : List ℚ) (h0 : st.lsIter v = 0)
    (hp : xs.Perm ys) :
    (xs.foldl (fun st x => mergeVertex st v x) st).lsArray v =
      (ys.foldl (fun st x => mergeVertex st v x) st).lsArray v ∧
    (xs.foldl (fun st x => mergeVertex st v x) st).lsIter v =
      (ys.foldl (fun st x => mergeVertex st v x) st).lsIter v := by
  have hx := foldl_mergeVertex_single xs st v
  have hy := foldl_mergeVertex_single ys st v
  have key : xs.foldl (fun p x => approach3 p.1 p.2 x) (st.lsArray v, st.lsIter v) =
      ys.foldl (fun p x => approach3 p.1 p.2 x) (st.lsArray v, st.lsIter v) := by
    rw [h0]
    cases xs with
    | nil => rw [List.Perm.eq_nil hp.symm]
    | cons x t =>
      cases ys with
      | nil => exact absurd (List.Perm.eq_nil hp) (by simp)
      | cons y u =>
        rw [approach3_foldl_zero, approach3_foldl_zero, hp.sum_eq, hp.length_eq]
  rw [key] at hx
  have h := hx.trans hy.symm
  exact ⟨congrArg Prod.fst h, congrArg Prod.snd h⟩

/-- Witness for C4: `1, 2, 6` and `6, 1, 2` merged into vertex `0`. -/
theorem merge_perm_witness :
    ((([1, 2, 6] : List ℚ).foldl (fun st x => mergeVertex st 0 x)
        (initState ⟨2, [], 4⟩ (fun _ => 0))).lsArray 0 =
      (([6, 1, 2] : List ℚ).foldl (fun st x => mergeVertex st 0 x)
        (initState ⟨2, [], 4⟩ (fun _ => 0))).lsArray 0) ∧
    ((([1, 2, 6] : List ℚ).foldl (fun st x => mergeVertex st 0 x)
        (initState ⟨2, [], 4⟩ (fun _ => 0))).lsIter 0 =
      (([6, 1, 2] : List ℚ).foldl (fun st x => mergeVertex st 0 x)
        (initState ⟨2, [], 4⟩ (fun _ => 0))).lsIter 0) :=
  merge_perm (initState ⟨2, [], 4⟩ (fun _ => 0)) 0 [1, 2, 6] [6, 1, 2] rfl
    (@List.perm_append_comm ℚ [1, 2] [6])

/-- The dispatch throws for a topology outside the five case labels. -/
theorem VOF_unsupported (K : Kernels) (cell : Cell) (c : List ℚ)
    (hs : isSupported cell.ct = false) : VOF K cell c = .error .invalidArgument := by
  unfold VOF
  cases hct : cell.ct <;> simp_all [isSupported]

/-- The solver passes the exception of its first kernel call on. -/
theorem VertexLevelSet_VOF_unsupported (K : Kernels) (dim : Nat) (cell : Cell) (targetVOF : ℚ)
    (n : List ℚ) (c : Option (List ℚ)) (fuel : Nat) (hs : isSupported cell.ct = false) :
    VertexLevelSet_VOF K dim cell targetVOF n c fuel = .error .invalidArgument := by
  unfold VertexLevelSet_VOF
  simp only []
  rw [VOF_unsupported K cell _ hs]

/-- The first sweep stops with the exception at a cut cell without a kernel. -/
theorem initialCell_unsupported (E : Env) (M : Mesh) (vofArray : Nat → ℚ) (fuel c : Nat)
    (cell : Cell) (st : State) (hcut : isCutCell E.small (vofArray cell.point) = true)
    (hs : isSupported cell.ct = false) :
    initialCell E M vofArray fuel c cell st = .error .invalidArgument := by
  unfold initialCell
  simp only [hcut, if_true]
  rw [VertexLevelSet_VOF_unsupported _ _ _ _ _ _ _ hs]

/-- A first sweep that comes to its end has met no cut cell without a kernel. -/
theorem initialPass_ok_supported (E : Env) (M : Mesh) (vofArray : Nat → ℚ) (fuel : Nat)
    (cells : List Cell) : ∀ (c : Nat) (st st' : State),
    initialPass E M vofArray fuel c cells st = .ok st' →
    ∀ cell ∈ cells, isCutCell E.small (vofArray cell.point) = true →
      isSupported cell.ct = true := by
  induction cells with
  | nil => intro c st st' _ cell hmem; simp at hmem
  | cons x rest ih =>
    intro c st st' h cell hmem hcut
    rw [initialPass] at h
    cases hx : initialCell E M vofArray fuel c x st with
    | error e => rw [hx] at h; simp at h
    | ok st1 =>
      rw [hx] at h
      rcases List.mem_cons.mp hmem with rfl | hin
      · by_contra hns
        rw [initialCell_unsupported E M vofArray fuel c cell st hcut
          (by simpa using hns)] at hx
        simp at hx
      · exact ih _ _ _ h cell hin hcut

/-- The first sweep over cells that end with a cut cell without a kernel. -/
theorem initialPass_append_unsupported (E : Env) (M : Mesh) (vofArray : Nat → ℚ) (fuel : Nat)
    (cell : Cell) (post : List Cell) (hcut : isCutCell E.small (vofArray cell.point) = true)
    (hs : isSupported cell.ct = false) (pre : List Cell) : ∀ (c : Nat) (st st1 : State),
    initialPass E M vofArray fuel c pre st = .ok st1 →
    initialPass E M vofArray fuel c (pre ++ cell :: post) st = .error .invalidArgument := by
  induction pre with
  | nil =>
    intro c st st1 _
    rw [List.nil_append, initialPass, initialCell_unsupported E M vofArray fuel c cell st hcut hs]
  | cons x rest ih =>
    intro c st st1 h
    rw [initialPass] at h
    rw [List.cons_append, initialPass]
    cases hx : initialCell E M vofArray fuel c x st with
    | error e => rw [hx] at h; simp at h
    | ok st2 =>
      rw [hx] at h
      exact ih _ _ _ h

/-- C7. Topology dispatch of `VOF`: the call throws `std::invalid_argument`
exactly for a cell type other than segment, triangle, quadrilateral,
tetrahedron and hexahedron; for each of these five it returns what the kernel
of that type gives on the coordinates of the cell and `c`.  The exception is
passed on by `VertexLevelSet_VOF`, and by `Reinitialize` when the cell is a cut
cell of the mesh: `Reinitialize` then never returns a field, and it ends with
the exception once the sweep has come through the cells before this one. -/
theorem VOF_dispatch (K : Kernels) (cell : Cell) (c : List ℚ) :
    (isSupported cell.ct = true ↔
      cell.ct = .SEGMENT ∨ cell.ct = .TRIANGLE ∨ cell.ct = .QUADRILATERAL ∨
        cell.ct = .TETRAHEDRON ∨ cell.ct = .HEXAHEDRON) ∧
    (VOF K cell c = .error .invalidArgument ↔ isSupported cell.ct = false) ∧
    ((∃ e, VOF K cell c = .error e) ↔ isSupported cell.ct = false) ∧
    (cell.ct = .SEGMENT → VOF K cell c = .ok (K.VOF_1D cell.coords c)) ∧
    (cell.ct = .TRIANGLE → VOF K cell c = .ok (K.VOF_2D_Tri cell.coords c)) ∧
    (cell.ct = .QUADRILATERAL → VOF K cell c = .ok (K.VOF_2D_Quad cell.coords c)) ∧
    (cell.ct = .TETRAHEDRON → VOF K cell c = .ok (K.VOF_3D_Tetra cell.coords c)) ∧
    (cell.ct = .HEXAHEDRON → VOF K cell c = .ok (K.VOF_3D_Hex cell.coords c)) ∧
    (isSupported cell.ct = false → ∀ dim targetVOF n buf fuel,
      VertexLevelSet_VOF K dim cell targetVOF n buf fuel = .error .invalidArgument) ∧
    (isSupported cell.ct = false →
      ∀ (E : Env) (M : Mesh) (vofArray lsArray : Nat → ℚ) (fuel passes : Nat),
        isCutCell E.small (vofArray cell.point) = true →
        (cell ∈ M.cells → ∀ st, Reinitialize E M vofArray lsArray fuel passes ≠ .ok st) ∧
        (∀ pre post st1, M.cells = pre ++ cell :: post →
          initialPass E M vofArray fuel 0 pre (initState M lsArray) = .ok st1 →
          Reinitialize E M vofArray lsArray fuel passes = .error .invalidArgument)) := by
  refine ⟨?_, ?_, ?_, ?_, ?_, ?_, ?_, ?_, ?_, ?_⟩
  · cases hct : cell.ct <;> simp [isSupported]
  · unfold VOF
    cases hct : cell.ct <;> simp [isSupported]
  · unfold VOF
    cases hct : cell.ct <;> simp [isSupported]
  · intro h; simp [VOF, h]
  · intro h; simp [VOF, h]
  · intro h; simp [VOF, h]
  · intro h; simp [VOF, h]
  · intro h; simp [VOF, h]
  · intro hs dim targetVOF n buf fuel
    exact VertexLevelSet_VOF_unsupported K dim cell targetVOF n buf fuel hs
  · intro hs E M vofArray lsArray fuel passes hcut
    refine ⟨?_, ?_⟩
    · intro hmem st hok
      unfold Reinitialize at hok
      cases hp : initialPass E M vofArray fuel 0 M.cells (initState M lsArray) with
      | error e => rw [hp] at hok; simp at hok
      | ok st1 =>
        have := initialPass_ok_supported E M vofArray fuel M.cells 0 _ _ hp cell hmem hcut
        rw [hs] at this
        exact absurd this (by simp)
    · intro pre post st1 hcells hpre
      unfold Reinitialize
      rw [hcells, initialPass_append_unsupported E M vofArray fuel cell post hcut hs pre 0 _ _ hpre]

/-- Witness for C7: a mesh whose only cell is a pyramid with VOF `1/2`. -/
theorem VOF_dispatch_witness :
    Reinitialize lineEnv pyramidMesh lineVof (fun _ => 0) 5 5 = .error .invalidArgument :=
  ((VOF_dispatch segmentKernels cellP []).2.2.2.2.2.2.2.2.2 rfl lineEnv pyramidMesh lineVof
    (fun _ => 0) 5 5 (by norm_num [isCutCell, lineEnv, lineVof, cellP])).2 [] [] _ rfl rfl

/-- The vertex loop of a cell is a run of merges over the pairs of the cell. -/
theorem mergeCell_eq_foldl (verts : List Nat) (lsVertVals : List ℚ) (st : State) :
    mergeCell verts lsVertVals st =
      (cellPairs verts lsVertVals).foldl (fun st p => mergeVertex st p.1 p.2) st := by
  simp [mergeCell, cellPairs, List.foldl_map]

/-- The vertex loop of a cell, seen from one vertex. -/
theorem mergeCell_at (verts : List Nat) (lsVertVals : List ℚ) (st : State) (w : Nat) :
    ((mergeCell verts lsVertVals st).lsArray w, (mergeCell verts lsVertVals st).lsIter w) =
      (cellContributions w verts lsVertVals).foldl (fun p x => approach3 p.1 p.2 x)
        (st.lsArray w, st.lsIter w) := by
  rw [mergeCell_eq_foldl, foldl_mergeVertex_at]
  rfl

/-- The first components of the pairs of a cell are its vertices. -/
theorem cellPairs_map_fst (verts : List Nat) (lsVertVals : List ℚ) :
    (cellPairs verts lsVertVals).map Prod.fst = verts := by
  apply List.ext_getElem?
  intro i
  simp only [cellPairs, List.map_map, List.getElem?_map, List.getElem?_range]
  by_cases hi : i < verts.length
  · simp [List.getElem?_range hi, List.getD_eq_getElem?_getD, List.getElem?_eq_getElem hi]
  · have h1 : (List.range verts.length)[i]? = none := by
      simp [List.getElem?_eq_none_iff, Nat.le_of_not_lt hi]
    have h2 : verts[i]? = none := by
      simp [List.getElem?_eq_none_iff, Nat.le_of_not_lt hi]
    simp [h1, h2]

/-- A solved cell holds as many values for `w` as `w` occurs among its vertices. -/
theorem cellContributions_length (w : Nat) (verts : List Nat) (lsVertVals : List ℚ) :
    (cellContributions w verts lsVertVals).length = verts.count w := by
  unfold cellContributions
  rw [List.length_map, ← List.countP_eq_length_filter]
  conv_rhs => rw [← cellPairs_map_fst verts lsVertVals]
  rw [List.count, List.countP_map]
  congr 1

/-- A solved cell holds no value for a vertex that is not one of its vertices. -/
theorem cellContributions_of_not_mem (w : Nat) (verts : List Nat) (lsVertVals : List ℚ)
    (h : w ∉ verts) : cellContributions w verts lsVertVals = [] := by
  apply List.eq_nil_of_length_eq_zero
  rw [cellContributions_length]
  exact List.count_eq_zero_of_not_mem h

/-- A solved cell with distinct vertices holds one value for each of them. -/
theorem cellContributions_length_nodup (w : Nat) (verts : List Nat) (lsVertVals : List ℚ)
    (hn : verts.Nodup) :
    (cellContributions w verts lsVertVals).length = if w ∈ verts then 1 else 0 := by
  rw [cellContributions_length]
  by_cases h : w ∈ verts
  · simp [h, List.count_eq_one_of_mem hn h]
  · simp [h, List.count_eq_zero_of_not_mem h]

/-- The sweep that recomputes the normals writes `cellMask` only. -/
theorem normalSweep_frame (E : Env) (M : Mesh) (vofArray : Nat → ℚ) (cells : List Cell) :
    ∀ (c : Nat) (st : State) (normal : List ℚ) (k : Nat),
    (normalSweep E M vofArray c cells st normal k).1.lsArray = st.lsArray ∧
    (normalSweep E M vofArray c cells st normal k).1.lsIter = st.lsIter ∧
    (normalSweep E M vofArray c cells st normal k).1.vertMask = st.vertMask ∧
    (normalSweep E M vofArray c cells st normal k).1.cutcellCount = st.cutcellCount := by
  induction cells with
  | nil => intro c st normal k; simp [normalSweep]
  | cons x rest ih =>
    intro c st normal k
    rw [normalSweep]
    by_cases hcut : isCutCell E.small (vofArray x.point) = true
    · simp only [hcut, if_true]
      exact ih _ _ _ _
    · simp only [hcut]
      exact ih _ _ _ _

/-- The first sweep, seen from one vertex: its value and counter are those it
had before, with the contributions of the cut cells folded in. -/
theorem initialPass_at (E : Env) (M : Mesh) (vofArray : Nat → ℚ) (fuel : Nat) (w : Nat)
    (cells : List Cell) : ∀ (c : Nat) (st st' : State),
    initialPass E M vofArray fuel c cells st = .ok st' →
    (st'.lsArray w, st'.lsIter w) =
      (initialContributions E M vofArray fuel w cells).foldl
        (fun p x => approach3 p.1 p.2 x) (st.lsArray w, st.lsIter w) := by
  induction cells with
  | nil =>
    intro c st st' h
    rw [initialPass] at h
    cases h
    simp [initialContributions]
  | cons x rest ih =>
    intro c st st' h
    rw [initialPass] at h
    cases hx : initialCell E M vofArray fuel c x st with
    | error e => rw [hx] at h; simp at h
    | ok st1 =>
      rw [hx] at h
      rw [ih _ _ _ h, initialContributions, List.foldl_append]
      congr 1
      unfold initialCell at hx
      by_cases hcut : isCutCell E.small (vofArray x.point) = true
      · simp only [hcut, if_true] at hx ⊢
        cases hs : VertexLevelSet_VOF E.K M.dim x (vofArray x.point) (initialNormal E M.dim x)
            (some (List.replicate x.verts.length 0)) fuel with
        | error e => rw [hs] at hx; simp at hx
        | ok vals =>
          rw [hs] at hx
          simp only [Except.ok.injEq] at hx
          rw [← hx, mergeCell_at]
      · simp only [hcut] at hx ⊢
        simp only [Bool.false_eq_true, if_false, Except.ok.injEq] at hx
        rw [← hx]
        simp

/-- The re-solve sweep, seen from one vertex. -/
theorem resolveSweep_at (E : Env) (M : Mesh) (vofArray : Nat → ℚ) (fuel : Nat)
    (normal : List ℚ) (w : Nat) (cells : List Cell) :
    ∀ (c k : Nat) (st : State) (r : State × Nat),
    resolveSweep E M vofArray fuel normal c cells k st = .ok r →
    (r.1.lsArray w, r.1.lsIter w) =
      (resolveContributions E M vofArray fuel normal w k cells).foldl
        (fun p x => approach3 p.1 p.2 x) (st.lsArray w, st.lsIter w) := by
  induction cells with
  | nil =>
    intro c k st r h
    rw [resolveSweep] at h
    cases h
    simp [resolveContributions]
  | cons x rest ih =>
    intro c k st r h
    rw [resolveSweep] at h
    cases hx : resolveCell E M vofArray fuel normal c x k st with
    | error e => rw [hx] at h; simp at h
    | ok r1 =>
      obtain ⟨st1, k1⟩ := r1
      rw [hx] at h
      rw [ih _ _ _ _ h, resolveContributions]
      unfold resolveCell at hx
      by_cases hcut : isCutCell E.small (vofArray x.point) = true
      · simp only [hcut, if_true] at hx ⊢
        cases hs : VertexLevelSet_VOF E.K M.dim x (vofArray x.point) (readNormal M.dim normal k)
            (some (List.replicate x.verts.length 0)) fuel with
        | error e => rw [hs] at hx; simp at hx
        | ok vals =>
          rw [hs] at hx
          simp only [Except.ok.injEq, Prod.mk.injEq] at hx
          rw [List.foldl_append, ← hx.1, ← hx.2, mergeCell_at]
      · simp only [hcut] at hx ⊢
        simp only [Bool.false_eq_true, if_false, Except.ok.injEq, Prod.mk.injEq] at hx
        rw [← hx.1, ← hx.2]
        simp

/-- No solve of the first pass has a value for a vertex outside every cut cell. -/
theorem initialContributions_untouched (E : Env) (M : Mesh) (vofArray : Nat → ℚ) (fuel : Nat)
    (w : Nat) (cells : List Cell)
    (h : ∀ cell ∈ cells, isCutCell E.small (vofArray cell.point) = true → w ∉ cell.verts) :
    initialContributions E M vofArray fuel w cells = [] := by
  induction cells with
  | nil => simp [initialContributions]
  | cons x rest ih =>
    rw [initialContributions, ih (fun cell hc => h cell (List.mem_cons_of_mem _ hc))]
    by_cases hcut : isCutCell E.small (vofArray x.point) = true
    · have hw := h x (List.mem_cons_self _ _) hcut
      simp only [hcut, if_true, List.append_nil]
      cases VertexLevelSet_VOF E.K M.dim x (vofArray x.point) (initialNormal E M.dim x)
          (some (List.replicate x.verts.length 0)) fuel with
      | error e => rfl
      | ok vals => exact cellContributions_of_not_mem w x.verts vals hw
    · simp [hcut]

/-- No solve of a loop pass has a value for a vertex outside every cut cell. -/
theorem resolveContributions_untouched (E : Env) (M : Mesh) (vofArray : Nat → ℚ) (fuel : Nat)
    (normal : List ℚ) (w : Nat) (cells : List Cell)
    (h : ∀ cell ∈ cells, isCutCell E.small (vofArray cell.point) = true → w ∉ cell.verts) :
    ∀ k, resolveContributions E M vofArray fuel normal w k cells = [] := by
  induction cells with
  | nil => intro k; simp [resolveContributions]
  | cons x rest ih =>
    intro k
    have ih' := ih (fun cell hc => h cell (List.mem_cons_of_mem _ hc))
    rw [resolveContributions]
    by_cases hcut : isCutCell E.small (vofArray x.point) = true
    · have hw := h x (List.mem_cons_self _ _) hcut
      simp only [hcut, if_true, ih', List.append_nil]
      cases VertexLevelSet_VOF E.K M.dim x (vofArray x.point) (readNormal M.dim normal k)
          (some (List.replicate x.verts.length 0)) fuel with
      | error e => rfl
      | ok vals => exact cellContributions_of_not_mem w x.verts vals hw
    · simp [hcut, ih']

/-- A loop pass, seen from one vertex: the counter restarts at zero and the
contributions of the re-solve sweep are folded in. -/
theorem loopPass_at (E : Env) (M : Mesh) (vofArray : Nat → ℚ) (fuel : Nat) (w : Nat)
    (st st' : State) (h : loopPass E M vofArray fuel st = .ok st') :
    (st'.lsArray w, st'.lsIter w) =
      (resolveContributions E M vofArray fuel (passNormals E M vofArray st) w 0 M.cells).foldl
        (fun p x => approach3 p.1 p.2 x) (st.lsArray w, 0) := by
  unfold loopPass at h
  simp only [] at h
  cases hr : resolveSweep E M vofArray fuel
      (normalSweep E M vofArray 0 M.cells st
        (List.replicate (M.dim * st.cutcellCount) 0) 0).2.1 0 M.cells 0
      { (normalSweep E M vofArray 0 M.cells st
          (List.replicate (M.dim * st.cutcellCount) 0) 0).1 with lsIter := fun _ => 0 } with
  | error e => rw [hr] at h; simp at h
  | ok r =>
    obtain ⟨st1, k1⟩ := r
    rw [hr] at h
    simp only [Except.ok.injEq] at h
    have := resolveSweep_at E M vofArray fuel _ w M.cells 0 0 _ _ hr
    simp only [(normalSweep_frame E M vofArray M.cells 0 st _ 0).1] at this
    rw [← h]
    exact this

/-- A property of the state that every loop pass keeps holds when the `while`
loop returns. -/
theorem whileLoop_invariant (E : Env) (M : Mesh) (vofArray : Nat → ℚ) (fuel : Nat)
    (P : State → Prop)
    (hP : ∀ st st', P st → loopPass E M vofArray fuel st = .ok st' → P st')
    (passes : Nat) : ∀ (maxError : ℚ) (ls_oldVal : Nat → ℚ) (st st' : State), P st →
    whileLoop E M vofArray fuel passes maxError ls_oldVal st = .ok st' → P st' := by
  induction passes with
  | zero =>
    intro maxError ls_oldVal st st' hst h
    rw [whileLoop] at h
    by_cases hgt : maxError > 1 / 10 ^ 6
    · rw [if_pos hgt] at h; simp at h
    · rw [if_neg hgt] at h
      simp only [Except.ok.injEq] at h
      exact h ▸ hst
  | succ passes ih =>
    intro maxError ls_oldVal st st' hst h
    rw [whileLoop] at h
    by_cases hgt : maxError > 1 / 10 ^ 6
    · rw [if_pos hgt] at h
      cases hl : loopPass E M vofArray fuel st with
      | error e => rw [hl] at h; simp at h
      | ok st1 =>
        rw [hl] at h
        exact ih _ _ _ _ (hP st st1 hst hl) h
    · rw [if_neg hgt] at h
      simp only [Except.ok.injEq] at h
      exact h ▸ hst

/-- C8. Untouched vertices keep the sentinel.  `Reinitialize` first sets the
entry of every vertex of the range to `PETSC_MAX_REAL`, whatever it held.  A
vertex that is in no cut cell holds the sentinel after the first pass, after
every loop pass (so its entry of `ls_oldVal - lsVec` is zero in the convergence
check of that pass) and when `Reinitialize` returns. -/
theorem untouched_vertex_sentinel (E : Env) (M : Mesh) (vofArray lsArray : Nat → ℚ)
    (fuel passes : Nat) (w : Nat) (hw : w < M.nVert)
    (hunt : ∀ cell ∈ M.cells, isCutCell E.small (vofArray cell.point) = true →
      w ∉ cell.verts) :
    (∀ v, v < M.nVert → (initState M lsArray).lsArray v = PETSC_MAX_REAL) ∧
    (∀ st, initialPass E M vofArray fuel 0 M.cells (initState M lsArray) = .ok st →
      st.lsArray w = PETSC_MAX_REAL) ∧
    (∀ st st', st.lsArray w = PETSC_MAX_REAL → loopPass E M vofArray fuel st = .ok st' →
      st'.lsArray w = PETSC_MAX_REAL ∧ -1 * st'.lsArray w + st.lsArray w = 0) ∧
    (∀ st, Reinitialize E M vofArray lsArray fuel passes = .ok st →
      st.lsArray w = PETSC_MAX_REAL) := by
  have h0 : ∀ v, v < M.nVert → (initState M lsArray).lsArray v = PETSC_MAX_REAL := by
    intro v hv
    simp [initState, hv]
  have h1 : ∀ st, initialPass E M vofArray fuel 0 M.cells (initState M lsArray) = .ok st →
      st.lsArray w = PETSC_MAX_REAL := by
    intro st h
    have := initialPass_at E M vofArray fuel w M.cells 0 _ _ h
    rw [initialContributions_untouched E M vofArray fuel w M.cells hunt] at this
    simp only [List.foldl_nil, Prod.mk.injEq] at this
    rw [this.1]
    exact h0 w hw
  have h2 : ∀ st st', st.lsArray w = PETSC_MAX_REAL → loopPass E M vofArray fuel st = .ok st' →
      st'.lsArray w = PETSC_MAX_REAL := by
    intro st st' hst h
    have := loopPass_at E M vofArray fuel w st st' h
    rw [resolveContributions_untouched E M vofArray fuel _ w M.cells hunt] at this
    simp only [List.foldl_nil, Prod.mk.injEq] at this
    rw [this.1]
    exact hst
  refine ⟨h0, h1, ?_, ?_⟩
  · intro st st' hst h
    have h' := h2 st st' hst h
    refine ⟨h', ?_⟩
    rw [h', hst]
    ring
  · intro st h
    unfold Reinitialize at h
    cases hp : initialPass E M vofArray fuel 0 M.cells (initState M lsArray) with
    | error e => rw [hp] at h; simp at h
    | ok st1 =>
      rw [hp] at h
      exact whileLoop_invariant E M vofArray fuel (fun s => s.lsArray w = PETSC_MAX_REAL) h2
        passes _ _ _ _ (h1 st1 hp) h

/-- A run of `Reinitialize` on the line mesh: two loop passes, final field
`1/2, -5/4, 2` at the vertices of the two cut cells and the sentinel at the
fourth vertex. -/
theorem lineMesh_run :
    ∃ st, Reinitialize lineEnv lineMesh lineVof (fun _ => 7) 0 2 = .ok st ∧
      st.lsArray 0 = 1 / 2 ∧ st.lsArray 1 = -5 / 4 ∧ st.lsArray 2 = 2 ∧
      st.lsArray 3 = PETSC_MAX_REAL ∧
      st.lsIter 0 = 1 ∧ st.lsIter 1 = 2 ∧ st.lsIter 2 = 1 ∧ st.lsIter 3 = 0 := by
  norm_num [ Reinitialize, whileLoop, loopPass, normalSweep, resolveSweep, resolveCell,
    copyNormal, readNormal, maxErrorOf, VecNormInfinity, initState, mergeCell, mergeVertex,
    approach3, initialPass, initialCell, lineMesh, lineEnv, lineVof, cellA, cellB, cellC,
    isCutCell, initialNormal, VertexLevelSet_VOF, VertexLevelSet_LS, vertexValue, VOF,
    solveLoop, shiftVertices, segmentKernels, segmentKernel, tol, List.range,
    List.range.loop, abs_div, List.replicate, Function.update_apply]

/-- In the line mesh the fourth vertex is in no cut cell. -/
theorem lineMesh_untouched :
    ∀ cell ∈ lineMesh.cells, isCutCell lineEnv.small (lineVof cell.point) = true →
      3 ∉ cell.verts := by
  intro cell hmem hcut
  simp only [lineMesh, List.mem_cons, List.mem_singleton, List.not_mem_nil, or_false] at hmem
  rcases hmem with rfl | rfl | rfl
  · simp [cellA]
  · simp [cellB]
  · norm_num [isCutCell, lineEnv, lineVof, cellC] at hcut

/-- Witness for C8: the run on the line mesh returns, and its fourth vertex,
which is in no cut cell, holds the sentinel. -/
theorem untouched_vertex_sentinel_witness :
    ∃ st, Reinitialize lineEnv lineMesh lineVof (fun _ => 7) 0 2 = .ok st ∧
      st.lsArray 3 = PETSC_MAX_REAL :=
  Exists.elim lineMesh_run (fun st h =>
    ⟨st, h.1, (untouched_vertex_sentinel lineEnv lineMesh lineVof (fun _ => 7) 0 2 3
      (by decide) lineMesh_untouched).2.2.2 st h.1⟩)

/-- The infinity norm over one more vertex. -/
theorem VecNormInfinity_succ (n : Nat) (w : Nat → ℚ) :
    VecNormInfinity (n + 1) w = max (VecNormInfinity n w) |w n| := by
  simp [VecNormInfinity, List.range_succ, List.foldl_append]

/-- Every entry is below the infinity norm. -/
theorem abs_le_VecNormInfinity (n : Nat) (w : Nat → ℚ) (v : Nat) (hv : v < n) :
    |w v| ≤ VecNormInfinity n w := by
  induction n with
  | zero => omega
  | succ n ih =>
    rw [VecNormInfinity_succ]
    rcases Nat.lt_succ_iff_lt_or_eq.mp hv with h | h
    · exact le_trans (ih h) (le_max_left _ _)
    · subst h; exact le_max_right _ _

/-- The infinity norm over at least one vertex is the entry of some vertex. -/
theorem VecNormInfinity_attained (n : Nat) (w : Nat → ℚ) (hn : 0 < n) :
    ∃ v, v < n ∧ VecNormInfinity n w = |w v| := by
  induction n with
  | zero => omega
  | succ n ih =>
    rw [VecNormInfinity_succ]
    rcases Nat.eq_zero_or_pos n with h0 | hpos
    · subst h0
      refine ⟨0, by omega, ?_⟩
      simp [VecNormInfinity]
    · obtain ⟨v, hv, he⟩ := ih hpos
      rcases le_total (VecNormInfinity n w) |w n| with hle | hle
      · exact ⟨n, by omega, max_eq_right hle⟩
      · exact ⟨v, by omega, by rw [max_eq_left hle, he]⟩

/-- One loop pass over the single segment with the sign-reversing gradient
turns the field `(-s/2, s/2)` into `(s/2, -s/2)`. -/
theorem flip_pass (st : State) (s : ℚ) (hs : s = 1 ∨ s = -1) (h0 : st.lsArray 0 = -s / 2)
    (h1 : st.lsArray 1 = s / 2) (hc : st.cutcellCount = 1) :
    ∃ st', loopPass flipEnv segmentMesh lineVof 0 st = .ok st' ∧
      st'.lsArray 0 = s / 2 ∧ st'.lsArray 1 = -s / 2 ∧ st'.cutcellCount = 1 := by
  rcases hs with rfl | rfl <;>
  norm_num [loopPass, normalSweep, resolveSweep, resolveCell, copyNormal, readNormal,
    mergeCell, mergeVertex, approach3, segmentMesh, flipEnv, lineEnv, lineVof, cellA,
    isCutCell, VertexLevelSet_VOF, VertexLevelSet_LS, vertexValue, VOF, solveLoop,
    shiftVertices, segmentKernels, segmentKernel, tol, List.range, List.range.loop, abs_div,
    List.replicate, Function.update_apply, h0, h1, hc]

/-- With the sign-reversing gradient the `while` loop uses up every fuel. -/
theorem flip_loop (passes : Nat) : ∀ (maxError : ℚ) (ls_oldVal : Nat → ℚ) (st : State) (s : ℚ),
    s = 1 ∨ s = -1 → st.lsArray 0 = -s / 2 → st.lsArray 1 = s / 2 → st.cutcellCount = 1 →
    ls_oldVal 0 = -s / 2 → ls_oldVal 1 = s / 2 → maxError > 1 / 10 ^ 6 →
    whileLoop flipEnv segmentMesh lineVof 0 passes maxError ls_oldVal st =
      .error .outOfFuel := by
  induction passes with
  | zero =>
    intro maxError ls_oldVal st s _ _ _ _ _ _ hgt
    rw [whileLoop, if_pos hgt]
  | succ passes ih =>
    intro maxError ls_oldVal st s hs h0 h1 hc ho0 ho1 hgt
    obtain ⟨st', hl, h0', h1', hc'⟩ := flip_pass st s hs h0 h1 hc
    rw [whileLoop, if_pos hgt]
    simp only [hl]
    refine ih _ _ st' (-s) ?_ ?_ ?_ hc' ?_ ?_ ?_
    · rcases hs with rfl | rfl <;> simp
    · rw [h0']; ring
    · rw [h1']; try ring
    · rw [h0']; ring
    · rw [h1']; try ring
    · rcases hs with rfl | rfl <;>
      norm_num [maxErrorOf, VecNormInfinity, segmentMesh, List.range, List.range.loop,
        h0', h1', ho0, ho1, abs_div]

/-- C9. Convergence transition.  The number compared with `1e-6` after a pass is
the maximum over all vertices of `|LevelSet_new[v] - LevelSet_previous[v]|`,
where the previous field is the one the pass started from.  The driver returns
the field of that pass when this maximum is `<= 1e-6` and otherwise goes on
with the next pass, whatever number of passes has been run; the first loop pass
is always run, from the field of the first sweep.  There is an input (a single
segment with a gradient operator of the opposite sign) on which the loop is
still running after any number of passes. -/
theorem convergence_transition (E : Env) (M : Mesh) (vofArray : Nat → ℚ) (fuel : Nat) :
    (∀ lsNew lsPrev : Nat → ℚ,
      (∀ v, v < M.nVert → |lsNew v - lsPrev v| ≤ maxErrorOf M.nVert lsNew lsPrev) ∧
      (0 < M.nVert → ∃ v, v < M.nVert ∧ maxErrorOf M.nVert lsNew lsPrev = |lsNew v - lsPrev v|) ∧
      (M.nVert = 0 → maxErrorOf M.nVert lsNew lsPrev = 0)) ∧
    (∀ (passes : Nat) (maxError : ℚ) (st : State), maxError ≤ 1 / 10 ^ 6 →
      whileLoop E M vofArray fuel passes maxError st.lsArray st = .ok st) ∧
    (∀ (passes : Nat) (maxError : ℚ) (st st' : State), 1 / 10 ^ 6 < maxError →
      loopPass E M vofArray fuel st = .ok st' →
      (maxErrorOf M.nVert st'.lsArray st.lsArray ≤ 1 / 10 ^ 6 →
        whileLoop E M vofArray fuel (passes + 1) maxError st.lsArray st = .ok st') ∧
      (1 / 10 ^ 6 < maxErrorOf M.nVert st'.lsArray st.lsArray →
        whileLoop E M vofArray fuel (passes + 1) maxError st.lsArray st =
          whileLoop E M vofArray fuel passes
            (maxErrorOf M.nVert st'.lsArray st.lsArray) st'.lsArray st')) ∧
    (∀ (lsArray : Nat → ℚ) (passes : Nat) (st st' : State),
      initialPass E M vofArray fuel 0 M.cells (initState M lsArray) = .ok st →
      loopPass E M vofArray fuel st = .ok st' →
      Reinitialize E M vofArray lsArray fuel (passes + 1) =
        whileLoop E M vofArray fuel passes
          (maxErrorOf M.nVert st'.lsArray st.lsArray) st'.lsArray st') ∧
    (∀ (lsArray : Nat → ℚ) (passes : Nat),
      Reinitialize flipEnv segmentMesh lineVof lsArray 0 passes = .error .outOfFuel) := by
  have habs : ∀ (lsNew lsPrev : Nat → ℚ) (v : Nat),
      |(-1 * lsNew v + lsPrev v)| = |lsNew v - lsPrev v| := by
    intro lsNew lsPrev v
    rw [← abs_neg]
    congr 1
    ring
  have hstep : ∀ (passes : Nat) (maxError : ℚ) (ls_oldVal : Nat → ℚ) (st st' : State),
      1 / 10 ^ 6 < maxError → loopPass E M vofArray fuel st = .ok st' →
      whileLoop E M vofArray fuel (passes + 1) maxError ls_oldVal st =
        whileLoop E M vofArray fuel passes
          (maxErrorOf M.nVert st'.lsArray ls_oldVal) st'.lsArray st' := by
    intro passes maxError ls_oldVal st st' hgt hl
    rw [whileLoop, if_pos hgt]
    simp only [hl]
  refine ⟨?_, ?_, ?_, ?_, ?_⟩
  · intro lsNew lsPrev
    refine ⟨?_, ?_, ?_⟩
    · intro v hv
      have := abs_le_VecNormInfinity M.nVert (fun v => -1 * lsNew v + lsPrev v) v hv
      simp only [habs] at this
      exact this
    · intro hn
      obtain ⟨v, hv, he⟩ :=
        VecNormInfinity_attained M.nVert (fun v => -1 * lsNew v + lsPrev v) hn
      simp only [habs] at he
      exact ⟨v, hv, he⟩
    · intro hn
      simp [maxErrorOf, VecNormInfinity, hn]
  · intro passes maxError st hle
    cases passes <;> rw [whileLoop, if_neg (not_lt.mpr hle)]
  · intro passes maxError st st' hgt hl
    refine ⟨?_, ?_⟩
    · intro hle
      rw [hstep passes maxError st.lsArray st st' hgt hl]
      cases passes <;> rw [whileLoop, if_neg (not_lt.mpr hle)]
    · intro _
      exact hstep passes maxError st.lsArray st st' hgt hl
  · intro lsArray passes st st' hi hl
    unfold Reinitialize
    rw [hi]
    exact hstep passes 1 st.lsArray st st' (by norm_num) hl
  · intro lsArray passes
    have hinit : ∃ st, initialPass flipEnv segmentMesh lineVof 0 0 segmentMesh.cells
        (initState segmentMesh lsArray) = .ok st ∧
        st.lsArray 0 = -1 / 2 ∧ st.lsArray 1 = 1 / 2 ∧ st.cutcellCount = 1 := by
      norm_num [initState, mergeCell, mergeVertex, approach3, initialPass, initialCell,
        segmentMesh, flipEnv, lineEnv, lineVof, cellA, isCutCell, initialNormal,
        VertexLevelSet_VOF, VertexLevelSet_LS, vertexValue, VOF, solveLoop, shiftVertices,
        segmentKernels, segmentKernel, tol, List.range, List.range.loop, abs_div,
        List.replicate, Function.update_apply]
    obtain ⟨st, hi, h0, h1, hc⟩ := hinit
    unfold Reinitialize
    rw [hi]
    exact flip_loop passes 1 st.lsArray st 1 (Or.inl rfl) h0 h1 hc h0 h1 (by norm_num)

/-- Witness for C9: the driver on the single segment with the sign-reversing
gradient has not stopped after three passes. -/
theorem convergence_transition_witness :
    Reinitialize flipEnv segmentMesh lineVof (fun _ => 0) 0 3 = .error .outOfFuel :=
  (convergence_transition lineEnv lineMesh lineVof 0).2.2.2.2 (fun _ => 0) 3

/-- Folding values into a vertex whose counter is `0`. -/
theorem approach3_foldl_from_zero (xs : List ℚ) (val : ℚ) :
    xs.foldl (fun p x => approach3 p.1 p.2 x) (val, 0) =
      (if xs = [] then val else xs.sum / (xs.length : ℕ), xs.length) := by
  cases xs with
  | nil => simp
  | cons x t => rw [approach3_foldl_zero]; simp

/-- Counting the incident cut cells, cell by cell. -/
theorem incidentCutCells_cons (E : Env) (vofArray : Nat → ℚ) (w : Nat) (x : Cell)
    (rest : List Cell) :
    incidentCutCells E vofArray w (x :: rest) =
      (if isCutCell E.small (vofArray x.point) = true ∧ w ∈ x.verts then 1 else 0) +
        incidentCutCells E vofArray w rest := by
  unfold incidentCutCells
  rw [List.countP_cons]
  by_cases h1 : isCutCell E.small (vofArray x.point) = true <;>
    by_cases h2 : w ∈ x.verts <;> simp [h1, h2, Nat.add_comm]

/-- After a first sweep that came to its end, each vertex has one value per
incident cut cell. -/
theorem initialContributions_length (E : Env) (M : Mesh) (vofArray : Nat → ℚ) (fuel : Nat)
    (w : Nat) (cells : List Cell) (hn : ∀ cell ∈ cells, cell.verts.Nodup) :
    ∀ (c : Nat) (st st' : State), initialPass E M vofArray fuel c cells st = .ok st' →
    (initialContributions E M vofArray fuel w cells).length =
      incidentCutCells E vofArray w cells := by
  induction cells with
  | nil => intro c st st' _; simp [initialContributions, incidentCutCells]
  | cons x rest ih =>
    intro c st st' h
    rw [initialPass] at h
    cases hx : initialCell E M vofArray fuel c x st with
    | error e => rw [hx] at h; simp at h
    | ok st1 =>
      rw [hx] at h
      have ih' := ih (fun cell hc => hn cell (List.mem_cons_of_mem _ hc)) _ _ _ h
      rw [initialContributions, List.length_append, ih', incidentCutCells_cons]
      congr 1
      unfold initialCell at hx
      by_cases hcut : isCutCell E.small (vofArray x.point) = true
      · simp only [hcut, if_true, true_and] at hx ⊢
        cases hs : VertexLevelSet_VOF E.K M.dim x (vofArray x.point) (initialNormal E M.dim x)
            (some (List.replicate x.verts.length 0)) fuel with
        | error e => rw [hs] at hx; simp at hx
        | ok vals =>
          exact cellContributions_length_nodup w x.verts vals (hn x (List.mem_cons_self _ _))
      · simp [hcut]

/-- After a re-solve sweep that came to its end, each vertex has one value per
incident cut cell. -/
theorem resolveContributions_length (E : Env) (M : Mesh) (vofArray : Nat → ℚ) (fuel : Nat)
    (normal : List ℚ) (w : Nat) (cells : List Cell) (hn : ∀ cell ∈ cells, cell.verts.Nodup) :
    ∀ (c k : Nat) (st : State) (r : State × Nat),
    resolveSweep E M vofArray fuel normal c cells k st = .ok r →
    (resolveContributions E M vofArray fuel normal w k cells).length =
      incidentCutCells E vofArray w cells := by
  induction cells with
  | nil => intro c k st r _; simp [resolveContributions, incidentCutCells]
  | cons x rest ih =>
    intro c k st r h
    rw [resolveSweep] at h
    cases hx : resolveCell E M vofArray fuel normal c x k st with
    | error e => rw [hx] at h; simp at h
    | ok r1 =>
      obtain ⟨st1, k1⟩ := r1
      rw [hx] at h
      have ih' := ih (fun cell hc => hn cell (List.mem_cons_of_mem _ hc)) _ _ _ _ h
      rw [resolveContributions, incidentCutCells_cons]
      unfold resolveCell at hx
      by_cases hcut : isCutCell E.small (vofArray x.point) = true
      · simp only [hcut, if_true, true_and] at hx ⊢
        cases hs : VertexLevelSet_VOF E.K M.dim x (vofArray x.point) (readNormal M.dim normal k)
            (some (List.replicate x.verts.length 0)) fuel with
        | error e => rw [hs] at hx; simp at hx
        | ok vals =>
          rw [hs] at hx
          simp only [Except.ok.injEq, Prod.mk.injEq] at hx
          obtain ⟨_, hk⟩ := hx
          subst hk
          rw [List.length_append, ih']
          congr 1
          exact cellContributions_length_nodup w x.verts vals (hn x (List.mem_cons_self _ _))
      · simp only [hcut] at hx ⊢
        simp only [Bool.false_eq_true, if_false, Except.ok.injEq, Prod.mk.injEq] at hx
        obtain ⟨_, hk⟩ := hx
        subst hk
        simp [ih']

/-- A loop pass that came to its end is a re-solve sweep that came to its end,
on the normals of the pass and with the counters at zero. -/
theorem loopPass_ok_resolveSweep (E : Env) (M : Mesh) (vofArray : Nat → ℚ) (fuel : Nat)
    (st st' : State) (h : loopPass E M vofArray fuel st = .ok st') :
    ∃ k, resolveSweep E M vofArray fuel (passNormals E M vofArray st) 0 M.cells 0
      { (normalSweep E M vofArray 0 M.cells st
          (List.replicate (M.dim * st.cutcellCount) 0) 0).1 with lsIter := fun _ => 0 } =
      .ok (st', k) := by
  unfold loopPass at h
  simp only [] at h
  unfold passNormals
  cases hr : resolveSweep E M vofArray fuel
      (normalSweep E M vofArray 0 M.cells st
        (List.replicate (M.dim * st.cutcellCount) 0) 0).2.1 0 M.cells 0
      { (normalSweep E M vofArray 0 M.cells st
          (List.replicate (M.dim * st.cutcellCount) 0) 0).1 with lsIter := fun _ => 0 } with
  | error e => rw [hr] at h; simp at h
  | ok r =>
    obtain ⟨st1, k1⟩ := r
    rw [hr] at h
    simp only [Except.ok.injEq] at h
    exact ⟨k1, by rw [h]⟩

/-- C10. Pass-local average.  In a mesh whose cells each list distinct
vertices, at the end of the first pass and at the end of every loop pass the
counter of each vertex is the number of cut cells incident to it, this pass's
solves have produced exactly that many values for it, and a vertex with at
least one incident cut cell holds the arithmetic mean of these values: neither
the value it held before the pass nor a cell that is not cut is part of it. -/
theorem pass_local_average (E : Env) (M : Mesh) (vofArray : Nat → ℚ) (fuel : Nat) (w : Nat)
    (hn : ∀ cell ∈ M.cells, cell.verts.Nodup) :
    (∀ (lsArray : Nat → ℚ) (st' : State),
      initialPass E M vofArray fuel 0 M.cells (initState M lsArray) = .ok st' →
      st'.lsIter w = incidentCutCells E vofArray w M.cells ∧
      (initialContributions E M vofArray fuel w M.cells).length =
        incidentCutCells E vofArray w M.cells ∧
      (0 < incidentCutCells E vofArray w M.cells →
        st'.lsArray w = (initialContributions E M vofArray fuel w M.cells).sum /
          (incidentCutCells E vofArray w M.cells : ℕ))) ∧
    (∀ (st st' : State), loopPass E M vofArray fuel st = .ok st' →
      st'.lsIter w = incidentCutCells E vofArray w M.cells ∧
      (resolveContributions E M vofArray fuel (passNormals E M vofArray st) w 0 M.cells).length =
        incidentCutCells E vofArray w M.cells ∧
      (0 < incidentCutCells E vofArray w M.cells →
        st'.lsArray w =
          (resolveContributions E M vofArray fuel (passNormals E M vofArray st) w 0 M.cells).sum /
            (incidentCutCells E vofArray w M.cells : ℕ))) := by
  refine ⟨?_, ?_⟩
  · intro lsArray st' h
    have hlen := initialContributions_length E M vofArray fuel w M.cells hn 0 _ _ h
    have hat := initialPass_at E M vofArray fuel w M.cells 0 _ _ h
    have h0 : (initState M lsArray).lsIter w = 0 := rfl
    rw [h0, approach3_foldl_from_zero, hlen] at hat
    simp only [Prod.mk.injEq] at hat
    refine ⟨hat.2, hlen, ?_⟩
    intro hpos
    have hne : initialContributions E M vofArray fuel w M.cells ≠ [] := by
      intro he
      rw [he] at hlen
      simp at hlen
      omega
    rw [hat.1, if_neg hne]
  · intro st st' h
    obtain ⟨k, hr⟩ := loopPass_ok_resolveSweep E M vofArray fuel st st' h
    have hlen := resolveContributions_length E M vofArray fuel _ w M.cells hn 0 0 _ _ hr
    have hat := loopPass_at E M vofArray fuel w st st' h
    rw [approach3_foldl_from_zero, hlen] at hat
    simp only [Prod.mk.injEq] at hat
    refine ⟨hat.2, hlen, ?_⟩
    intro hpos
    have hne : resolveContributions E M vofArray fuel (passNormals E M vofArray st) w 0
        M.cells ≠ [] := by
      intro he
      rw [he] at hlen
      simp at hlen
      omega
    rw [hat.1, if_neg hne]

/-- In the line mesh every cell lists distinct vertices. -/
theorem lineMesh_nodup : ∀ cell ∈ lineMesh.cells, cell.verts.Nodup := by
  intro cell hmem
  simp only [lineMesh, List.mem_cons, List.mem_singleton, List.not_mem_nil, or_false] at hmem
  rcases hmem with rfl | rfl | rfl <;> simp [cellA, cellB, cellC]

/-- The first sweep over the line mesh comes to its end. -/
theorem lineMesh_initialPass :
    ∃ st, initialPass lineEnv lineMesh lineVof 0 0 lineMesh.cells
      (initState lineMesh (fun _ => 7)) = .ok st := by
  norm_num [initState, mergeCell, mergeVertex, approach3, initialPass, initialCell, lineMesh,
    lineEnv, lineVof, cellA, cellB, cellC, isCutCell, initialNormal, VertexLevelSet_VOF,
    VertexLevelSet_LS, vertexValue, VOF, solveLoop, shiftVertices, segmentKernels,
    segmentKernel, tol, List.range, List.range.loop, abs_div, List.replicate]

/-- Witness for C10: after the first sweep over the line mesh the vertex `1`,
shared by the two cut cells, has the counter `2`. -/
theorem pass_local_average_witness :
    ∃ st, initialPass lineEnv lineMesh lineVof 0 0 lineMesh.cells
        (initState lineMesh (fun _ => 7)) = .ok st ∧
      st.lsIter 1 = incidentCutCells lineEnv lineVof 1 lineMesh.cells ∧
      incidentCutCells lineEnv lineVof 1 lineMesh.cells = 2 :=
  Exists.elim lineMesh_initialPass (fun st h =>
    ⟨st, h,
      ((pass_local_average lineEnv lineMesh lineVof 0 1 lineMesh_nodup).1 (fun _ => 7) st h).1,
      by norm_num [incidentCutCells, lineMesh, lineEnv, lineVof, cellA, cellB, cellC,
        isCutCell, List.countP_cons]⟩)

/-- The mean of a non-empty list lies between a lower and an upper bound of its
entries. -/
theorem mean_bounds (xs : List ℚ) (hlen : 0 < xs.length) (lo hi : ℚ)
    (hlo : ∀ x ∈ xs, lo ≤ x) (hhi : ∀ x ∈ xs, x ≤ hi) :
    lo ≤ xs.sum / (xs.length : ℕ) ∧ xs.sum / (xs.length : ℕ) ≤ hi := by
  have hpos : (0 : ℚ) < (xs.length : ℕ) := by exact_mod_cast hlen
  have h1 := List.card_nsmul_le_sum xs lo hlo
  have h2 := List.sum_le_card_nsmul xs hi hhi
  rw [nsmul_eq_mul] at h1 h2
  constructor
  · rw [le_div_iff₀ hpos]; linarith
  · rw [div_le_iff₀ hpos]; linarith

/-- C18. Merged value within its contributions: a non-empty sequence `xs` merged
into a vertex whose counter is `0` leaves a value between the minimum and the
maximum of `xs`; it is strictly positive when all of `xs` are, and strictly
negative when all of `xs` are. -/
theorem merged_value_bounds (st : State) (v : Nat) (xs : List ℚ) (h0 : st.lsIter v = 0)
    (hlen : 0 < xs.length) :
    xs.minimum_of_length_pos hlen ≤ (xs.foldl (fun st x => mergeVertex st v x) st).lsArray v ∧
    (xs.foldl (fun st x => mergeVertex st v x) st).lsArray v ≤ xs.maximum_of_length_pos hlen ∧
    ((∀ x ∈ xs, 0 < x) → 0 < (xs.foldl (fun st x => mergeVertex st v x) st).lsArray v) ∧
    ((∀ x ∈ xs, x < 0) → (xs.foldl (fun st x => mergeVertex st v x) st).lsArray v < 0) := by
  have hval : (xs.foldl (fun st x => mergeVertex st v x) st).lsArray v =
      xs.sum / (xs.length : ℕ) := by
    have h := foldl_mergeVertex_single xs st v
    cases xs with
    | nil => simp at hlen
    | cons x t =>
      rw [h0, approach3_foldl_zero] at h
      exact congrArg Prod.fst h
  rw [hval]
  have hb := mean_bounds xs hlen (xs.minimum_of_length_pos hlen) (xs.maximum_of_length_pos hlen)
    (fun x hx => List.minimum_of_length_pos_le_of_mem hx hlen)
    (fun x hx => List.le_maximum_of_length_pos_of_mem hx hlen)
  refine ⟨hb.1, hb.2, ?_, ?_⟩
  · intro hp
    exact lt_of_lt_of_le (hp _ (List.minimum_of_length_pos_mem hlen)) hb.1
  · intro hn
    exact lt_of_le_of_lt hb.2 (hn _ (List.maximum_of_length_pos_mem hlen))

/-- Witness for C18: the contributions `1, 2, 6` merged into vertex `0`. -/
theorem merged_value_bounds_witness :
    0 < (([1, 2, 6] : List ℚ).foldl (fun st x => mergeVertex st 0 x)
      (initState ⟨2, [], 4⟩ (fun _ => 0))).lsArray 0 :=
  (merged_value_bounds (initState ⟨2, [], 4⟩ (fun _ => 0)) 0 [1, 2, 6] rfl
    (by decide)).2.2.1 (by intro x hx; simp at hx; rcases hx with rfl | rfl | rfl <;> norm_num)

/-- The shift loop keeps the length of the array. -/
theorem length_shiftVertices (nv : Nat) (offset : ℚ) (cur : List ℚ) :
    (shiftVertices nv offset cur).length = cur.length := by
  unfold shiftVertices
  induction nv with
  | zero => simp
  | succ m ih =>
    rw [List.range_succ, List.foldl_append]
    simp only [List.foldl_cons, List.foldl_nil, List.length_set]
    exact ih

/-- The shift loop subtracts `offset` once from each of the first `nv` entries
that the array has and leaves the others. -/
theorem getElem?_shiftVertices (nv : Nat) (offset : ℚ) (cur : List ℚ) (i : Nat) :
    (shiftVertices nv offset cur)[i]? =
      if i < nv ∧ i < cur.length then some (cur.getD i 0 - offset) else cur[i]? := by
  induction nv generalizing i with
  | zero => simp [shiftVertices]
  | succ m ih =>
    have hstep : shiftVertices (m + 1) offset cur =
        (shiftVertices m offset cur).set m ((shiftVertices m offset cur).getD m 0 - offset) := by
      simp only [shiftVertices, List.range_succ, List.foldl_append, List.foldl_cons,
        List.foldl_nil]
    have hm : (shiftVertices m offset cur).getD m 0 = cur.getD m 0 := by
      rw [List.getD_eq_getElem?_getD, List.getD_eq_getElem?_getD, ih m]
      simp
    rw [hstep, List.getElem?_set, length_shiftVertices, hm]
    by_cases h : m = i
    · subst h
      by_cases hb : m < cur.length
      · simp [hb]
      · simp only [hb, and_false, if_false, ih]
        simp [Nat.le_of_not_lt hb]
    · simp only [h, if_false, ih]
      have : (i < m + 1) ↔ (i < m) := by omega
      simp [this]

/-- The inner loop of `VertexLevelSet_LS` as a finite sum. -/
theorem vertexValue_eq (dim : Nat) (x0 coords n : List ℚ) (c0 : ℚ) (i : Nat) :
    vertexValue dim x0 coords n c0 i =
      c0 + ∑ j in Finset.range dim, n.getD j 0 * (coords.getD (i * dim + j) 0 - x0.getD j 0) := by
  unfold vertexValue
  rw [foldl_add_eq_sum]

/-- Shifting an array that was just written entry by entry. -/
theorem shiftVertices_foldl_set (f : Nat → ℚ) (m : Nat) (offset : ℚ) (buf : List ℚ) :
    shiftVertices m offset ((List.range m).foldl (fun b i => b.set i (f i)) buf) =
      (List.range m).foldl (fun b i => b.set i (f i - offset)) buf := by
  apply List.ext_getElem?
  intro i
  rw [getElem?_shiftVertices, length_foldl_set, List.getD_eq_getElem?_getD,
    getElem?_foldl_set, getElem?_foldl_set]
  by_cases h : i < m ∧ i < buf.length
  · simp only [h, and_self, if_true, Option.getD_some]
  · simp only [h, if_false]

/-- Shifting the output of `VertexLevelSet_LS` moves its centre value. -/
theorem shiftVertices_LS (dim : Nat) (cell : Cell) (s offset : ℚ) (n : List ℚ)
    (buf : Option (List ℚ)) :
    shiftVertices (cell.coords.length / dim) offset (VertexLevelSet_LS dim cell s n buf) =
      VertexLevelSet_LS dim cell (s - offset) n buf := by
  unfold VertexLevelSet_LS
  simp only []
  rw [shiftVertices_foldl_set]
  congr 1
  funext b i
  rw [vertexValue_eq, vertexValue_eq]
  congr 1
  ring

/-- The solver loop started on an output of `VertexLevelSet_LS` returns an output
of `VertexLevelSet_LS`, its centre value lowered by the offsets applied. -/
theorem solveLoop_planar (K : Kernels) (dim : Nat) (cell : Cell) (targetVOF cellVolume : ℚ)
    (n : List ℚ) (buf : Option (List ℚ)) (fuel : Nat) :
    ∀ (vofError area s : ℚ) (vals : List ℚ),
    solveLoop K cell targetVOF cellVolume (cell.coords.length / dim) fuel vofError area
      (VertexLevelSet_LS dim cell s n buf) = .ok vals →
    vals = VertexLevelSet_LS dim cell
      (s - (solveOffsets K cell targetVOF cellVolume (cell.coords.length / dim) fuel vofError
        area (VertexLevelSet_LS dim cell s n buf)).sum) n buf := by
  induction fuel with
  | zero =>
    intro vofError area s vals h
    rw [solveLoop] at h
    rw [solveOffsets]
    by_cases hgt : |vofError| > tol
    · rw [if_pos hgt] at h; simp at h
    · rw [if_neg hgt] at h
      rw [if_neg hgt]
      simp only [Except.ok.injEq] at h
      simp [← h]
  | succ fuel ih =>
    intro vofError area s vals h
    rw [solveLoop] at h
    rw [solveOffsets]
    by_cases hgt : |vofError| > tol
    · rw [if_pos hgt] at h
      rw [if_pos hgt]
      by_cases ha : area = 0
      · rw [if_pos ha] at h; simp at h
      · rw [if_neg ha] at h
        rw [if_neg ha]
        simp only [] at h ⊢
        rw [shiftVertices_LS] at h ⊢
        cases hv : VOF K cell
            (VertexLevelSet_LS dim cell (s - vofError * cellVolume / area * (1 / 2)) n buf) with
        | error e => rw [hv] at h; simp at h
        | ok p =>
          obtain ⟨vof, area', vol'⟩ := p
          rw [hv] at h
          have := ih _ _ _ _ h
          rw [this]
          simp only [List.sum_cons]
          congr 1
          ring
    · rw [if_neg hgt] at h
      rw [if_neg hgt]
      simp only [Except.ok.injEq] at h
      simp [← h]


/-- C14. Solver iteration of `VertexLevelSet_VOF`.  The start is
`VertexLevelSet_LS` with `c0 = 0` and `vofError = targetVOF - vof`; when
`|vofError| <= 1e-8` this start is returned unchanged.  Otherwise an iteration
subtracts `offset = 0.5 * vofError * cellVolume / area` from each of the `nv`
vertex values, with `vofError` and `area` from the latest kernel evaluation and
`cellVolume` from the first one, and the loop goes on exactly while
`|vofError| > 1e-8`. -/
theorem solver_iteration (K : Kernels) (dim : Nat) (cell : Cell) (targetVOF : ℚ)
    (n : List ℚ) (buf : Option (List ℚ)) :
    (∀ vof area cellVolume fuel,
      VOF K cell (VertexLevelSet_LS dim cell 0 n buf) = .ok (vof, area, cellVolume) →
      |targetVOF - vof| ≤ 1 / 10 ^ 8 →
      VertexLevelSet_VOF K dim cell targetVOF n buf fuel =
        .ok (VertexLevelSet_LS dim cell 0 n buf)) ∧
    (∀ vof area cellVolume fuel,
      VOF K cell (VertexLevelSet_LS dim cell 0 n buf) = .ok (vof, area, cellVolume) →
      VertexLevelSet_VOF K dim cell targetVOF n buf fuel =
        solveLoop K cell targetVOF cellVolume cell.verts.length fuel (targetVOF - vof) area
          (VertexLevelSet_LS dim cell 0 n buf)) ∧
    (∀ cellVolume nv fuel vofError area cur, |vofError| ≤ 1 / 10 ^ 8 →
      solveLoop K cell targetVOF cellVolume nv fuel vofError area cur = .ok cur) ∧
    (∀ cellVolume nv fuel vofError area cur vof' area' vol', 1 / 10 ^ 8 < |vofError| →
      area ≠ 0 →
      VOF K cell (shiftVertices nv (1 / 2 * vofError * cellVolume / area) cur) =
        .ok (vof', area', vol') →
      solveLoop K cell targetVOF cellVolume nv (fuel + 1) vofError area cur =
        solveLoop K cell targetVOF cellVolume nv fuel (targetVOF - vof') area'
          (shiftVertices nv (1 / 2 * vofError * cellVolume / area) cur)) ∧
    (∀ nv offset cur i,
      (i < nv → i < cur.length →
        (shiftVertices nv offset cur)[i]? = some (cur.getD i 0 - offset)) ∧
      (nv ≤ i → (shiftVertices nv offset cur)[i]? = cur[i]?)) := by
  have hoff : ∀ vofError cellVolume area : ℚ,
      vofError * cellVolume / area * (1 / 2) = 1 / 2 * vofError * cellVolume / area := by
    intro a b d; ring
  have hexit : ∀ cellVolume nv fuel vofError area cur, |vofError| ≤ 1 / 10 ^ 8 →
      solveLoop K cell targetVOF cellVolume nv fuel vofError area cur = .ok cur := by
    intro cellVolume nv fuel vofError area cur hle
    have hng : ¬ |vofError| > tol := not_lt.mpr hle
    cases fuel <;> rw [solveLoop, if_neg hng]
  have hstart : ∀ vof area cellVolume fuel,
      VOF K cell (VertexLevelSet_LS dim cell 0 n buf) = .ok (vof, area, cellVolume) →
      VertexLevelSet_VOF K dim cell targetVOF n buf fuel =
        solveLoop K cell targetVOF cellVolume cell.verts.length fuel (targetVOF - vof) area
          (VertexLevelSet_LS dim cell 0 n buf) := by
    intro vof area cellVolume fuel hv
    unfold VertexLevelSet_VOF
    simp only []
    rw [hv]
  refine ⟨?_, hstart, hexit, ?_, ?_⟩
  · intro vof area cellVolume fuel hv hle
    rw [hstart vof area cellVolume fuel hv]
    exact hexit _ _ _ _ _ _ hle
  · intro cellVolume nv fuel vofError area cur vof' area' vol' hgt ha hv
    have hg : |vofError| > tol := hgt
    rw [solveLoop, if_pos hg, if_neg ha]
    simp only []
    rw [hoff, hv]
  · intro nv offset cur i
    refine ⟨?_, ?_⟩
    · intro h1 h2
      rw [getElem?_shiftVertices, if_pos ⟨h1, h2⟩]
    · intro h1
      rw [getElem?_shiftVertices, if_neg (fun h => absurd h.1 (Nat.not_lt.mpr h1))]

/-- Witness for C14: the segment `[0, 1]` with the normal `1`: for the target
`1/2` the start `(-1/2, 1/2)` is returned as it is. -/
theorem solver_iteration_witness :
    VertexLevelSet_VOF segmentKernels 1 cellA (1 / 2) [1] none 0 =
      .ok (VertexLevelSet_LS 1 cellA 0 [1] none) :=
  (solver_iteration segmentKernels 1 cellA (1 / 2) [1] none).1 (1 / 2) 1 1 0
    (by norm_num [VertexLevelSet_LS, vertexValue, VOF, segmentKernels, segmentKernel, cellA,
      List.range, List.range.loop, List.replicate])
    (by norm_num)

/-- The entry of a vertex in the output of `VertexLevelSet_LS`. -/
theorem getElem?_VertexLevelSet_LS (dim : Nat) (cell : Cell) (c0 : ℚ) (n : List ℚ)
    (buf : Option (List ℚ)) (i : Nat) (hi : i < cell.coords.length / dim)
    (hc : ∀ b, buf = some b → cell.coords.length / dim ≤ b.length) :
    (VertexLevelSet_LS dim cell c0 n buf)[i]? =
      some (c0 + ∑ j in Finset.range dim,
        n.getD j 0 * (cell.coords.getD (i * dim + j) 0 - cell.x0.getD j 0)) := by
  unfold VertexLevelSet_LS
  simp only []
  rw [getElem?_foldl_set]
  have hlen : i < (match buf with
      | none => List.replicate (cell.coords.length / dim) (0 : ℚ)
      | some b => b).length := by
    cases buf with
    | none => simpa using hi
    | some b => exact lt_of_lt_of_le hi (hc b rfl)
  rw [if_pos ⟨hi, hlen⟩, vertexValue_eq]

/-- An array returned by `VertexLevelSet_VOF` is an output of `VertexLevelSet_LS`
whose centre value is minus the sum of the offsets applied. -/
theorem VertexLevelSet_VOF_planar (K : Kernels) (dim : Nat) (cell : Cell) (targetVOF : ℚ)
    (n : List ℚ) (buf : Option (List ℚ)) (fuel : Nat) (vals : List ℚ)
    (hnv : cell.verts.length = cell.coords.length / dim)
    (h : VertexLevelSet_VOF K dim cell targetVOF n buf fuel = .ok vals) :
    vals = VertexLevelSet_LS dim cell
      (-(appliedOffsets K dim cell targetVOF n buf fuel).sum) n buf := by
  unfold VertexLevelSet_VOF at h
  unfold appliedOffsets
  simp only [] at h
  cases hv : VOF K cell (VertexLevelSet_LS dim cell 0 n buf) with
  | error e => rw [hv] at h; simp at h
  | ok p =>
    obtain ⟨vof, area, cellVolume⟩ := p
    rw [hv] at h
    simp only []
    rw [hnv] at h ⊢
    have := solveLoop_planar K dim cell targetVOF cellVolume n buf fuel _ _ 0 vals h
    rw [zero_sub] at this
    exact this

/-- C16. Planarity of the output of `VertexLevelSet_VOF`, for a cell whose
coordinate array holds `dim` reals for each of its `nv` vertices.  Shifting an
output of `VertexLevelSet_LS` gives the output of `VertexLevelSet_LS` with the
centre value lowered by the offset, so after every iteration, and for a
returned array, the values are those of `VertexLevelSet_LS` with the centre
value `s = -(sum of the offsets applied)`: `c[i] = s + n·(x_i - x0)` for every
vertex, every difference `c[i] - c[j]` is `n·(x_i - x_j)`, and it is the same
for every target. -/
theorem planarity_invariant (K : Kernels) (dim : Nat) (cell : Cell) (targetVOF : ℚ)
    (n : List ℚ) (buf : Option (List ℚ)) (fuel : Nat) (vals : List ℚ)
    (hnv : cell.verts.length = cell.coords.length / dim)
    (hc : ∀ b, buf = some b → cell.coords.length / dim ≤ b.length)
    (h : VertexLevelSet_VOF K dim cell targetVOF n buf fuel = .ok vals) :
    (∀ s offset, shiftVertices cell.verts.length offset (VertexLevelSet_LS dim cell s n buf) =
      VertexLevelSet_LS dim cell (s - offset) n buf) ∧
    vals = VertexLevelSet_LS dim cell
      (-(appliedOffsets K dim cell targetVOF n buf fuel).sum) n buf ∧
    (∀ i, i < cell.verts.length →
      vals[i]? = some (-(appliedOffsets K dim cell targetVOF n buf fuel).sum +
        ∑ j in Finset.range dim,
          n.getD j 0 * (cell.coords.getD (i * dim + j) 0 - cell.x0.getD j 0))) ∧
    (∀ i j, i < cell.verts.length → j < cell.verts.length →
      vals.getD i 0 - vals.getD j 0 =
        ∑ k in Finset.range dim,
          n.getD k 0 * (cell.coords.getD (i * dim + k) 0 - cell.coords.getD (j * dim + k) 0)) ∧
    (∀ targetVOF' fuel' vals',
      VertexLevelSet_VOF K dim cell targetVOF' n buf fuel' = .ok vals' →
      ∀ i j, i < cell.verts.length → j < cell.verts.length →
        vals.getD i 0 - vals.getD j 0 = vals'.getD i 0 - vals'.getD j 0) := by
  have hentry : ∀ (t : ℚ) (f : Nat) (w : List ℚ),
      VertexLevelSet_VOF K dim cell t n buf f = .ok w → ∀ i, i < cell.verts.length →
      w[i]? = some (-(appliedOffsets K dim cell t n buf f).sum +
        ∑ j in Finset.range dim,
          n.getD j 0 * (cell.coords.getD (i * dim + j) 0 - cell.x0.getD j 0)) := by
    intro t f w hw i hi
    rw [VertexLevelSet_VOF_planar K dim cell t n buf f w hnv hw]
    exact getElem?_VertexLevelSet_LS dim cell _ n buf i (hnv ▸ hi) hc
  have hdiff : ∀ (t : ℚ) (f : Nat) (w : List ℚ),
      VertexLevelSet_VOF K dim cell t n buf f = .ok w →
      ∀ i j, i < cell.verts.length → j < cell.verts.length →
      w.getD i 0 - w.getD j 0 =
        ∑ k in Finset.range dim,
          n.getD k 0 * (cell.coords.getD (i * dim + k) 0 - cell.coords.getD (j * dim + k) 0) := by
    intro t f w hw i j hi hj
    rw [List.getD_eq_getElem?_getD, List.getD_eq_getElem?_getD, hentry t f w hw i hi,
      hentry t f w hw j hj]
    simp only [Option.getD_some]
    rw [add_sub_add_left_eq_sub, ← Finset.sum_sub_distrib]
    apply Finset.sum_congr rfl
    intro k _
    ring
  refine ⟨?_, VertexLevelSet_VOF_planar K dim cell targetVOF n buf fuel vals hnv h,
    hentry targetVOF fuel vals h, hdiff targetVOF fuel vals h, ?_⟩
  · intro s offset
    rw [hnv]
    exact shiftVertices_LS dim cell s offset n buf
  · intro targetVOF' fuel' vals' h' i j hi hj
    rw [hdiff targetVOF fuel vals h i j hi hj, hdiff targetVOF' fuel' vals' h' i j hi hj]

/-- Witness for C16: the segment `[0, 1]` with the normal `1` and the target
`1/2 + 3e-8`, solved in two iterations: the two vertex values differ by the
length of the segment. -/
theorem planarity_invariant_witness :
    ([-200000009 / 400000000, 199999991 / 400000000] : List ℚ).getD 1 0 -
        ([-200000009 / 400000000, 199999991 / 400000000] : List ℚ).getD 0 0 =
      ∑ k in Finset.range 1, ([1] : List ℚ).getD k 0 *
        (cellA.coords.getD (1 * 1 + k) 0 - cellA.coords.getD (0 * 1 + k) 0) :=
  (planarity_invariant segmentKernels 1 cellA (1 / 2 + 3 / 10 ^ 8) [1] none 2
    [-200000009 / 400000000, 199999991 / 400000000] rfl (by intro b hb; cases hb)
    (by norm_num [VertexLevelSet_VOF, VertexLevelSet_LS, vertexValue, VOF, solveLoop,
      shiftVertices, segmentKernels, segmentKernel, cellA, tol, List.range, List.range.loop,
      abs_div, List.replicate])).2.2.2.1 1 0 (by decide) (by decide)

/-- Counterexample for C12: with kernels that give `vof = 0` and the interface
measure `0` on the segment `[0, 1]` and the target `1/2`, the error `1/2` is
above `1e-8` and the first iteration divides by the zero measure: nothing is
thrown and the cell is not skipped. -/
theorem zero_area_divides :
    VOF flatKernels cellA (VertexLevelSet_LS 1 cellA 0 [1] none) = .ok (0, 0, 1) ∧
    |(1 / 2 : ℚ) - 0| > 1 / 10 ^ 8 ∧
    VertexLevelSet_VOF flatKernels 1 cellA (1 / 2) [1] none 1 = .error .nonFinite := by
  refine ⟨?_, ?_, ?_⟩
  · simp [VOF, flatKernels, cellA]
  · norm_num [abs_div]
  · norm_num [VertexLevelSet_VOF, VOF, flatKernels, cellA, solveLoop, tol, abs_div]

/-- C12, as the code has it.  `VertexLevelSet_VOF` has no test on the interface
measure.  When the kernel gives the measure `0` while `|targetVOF - vof| > 1e-8`,
at the first evaluation or at a later one, the next iteration divides
`vofError * cellVolume` by it, whatever the array and the cell measure are; no
exception is thrown and the cell is not skipped.  A zero measure is harmless
only when `|targetVOF - vof| <= 1e-8`: then the array is returned without a
division. -/
theorem zero_area_unguarded (K : Kernels) (dim : Nat) (cell : Cell) (targetVOF : ℚ)
    (n : List ℚ) (buf : Option (List ℚ)) (fuel : Nat) (vof cellVolume : ℚ)
    (hv : VOF K cell (VertexLevelSet_LS dim cell 0 n buf) = .ok (vof, 0, cellVolume)) :
    (|targetVOF - vof| > 1 / 10 ^ 8 →
      VertexLevelSet_VOF K dim cell targetVOF n buf (fuel + 1) = .error .nonFinite) ∧
    (|targetVOF - vof| ≤ 1 / 10 ^ 8 →
      VertexLevelSet_VOF K dim cell targetVOF n buf fuel =
        .ok (VertexLevelSet_LS dim cell 0 n buf)) ∧
    (∀ vol nv vofError cur, |vofError| > 1 / 10 ^ 8 →
      solveLoop K cell targetVOF vol nv (fuel + 1) vofError 0 cur = .error .nonFinite) := by
  have hloop : ∀ vol nv vofError cur, |vofError| > 1 / 10 ^ 8 →
      solveLoop K cell targetVOF vol nv (fuel + 1) vofError 0 cur = .error .nonFinite := by
    intro vol nv vofError cur hgt
    have hg : |vofError| > tol := hgt
    rw [solveLoop, if_pos hg, if_pos rfl]
  refine ⟨?_, ?_, hloop⟩
  · intro hgt
    unfold VertexLevelSet_VOF
    simp only []
    rw [hv]
    exact hloop _ _ _ _ hgt
  · intro hle
    unfold VertexLevelSet_VOF
    simp only []
    rw [hv]
    have hng : ¬ |targetVOF - vof| > tol := not_lt.mpr hle
    show solveLoop K cell targetVOF cellVolume cell.verts.length fuel (targetVOF - vof) 0
      (VertexLevelSet_LS dim cell 0 n buf) = _
    cases fuel <;> rw [solveLoop, if_neg hng]

/-- Witness for C12 as the code has it: the flat kernels on the segment `[0, 1]`. -/
theorem zero_area_unguarded_witness :
    VertexLevelSet_VOF flatKernels 1 cellA (1 / 2) [1] none (3 + 1) = .error .nonFinite :=
  (zero_area_unguarded flatKernels 1 cellA (1 / 2) [1] none 3 0 1
    (by simp [VOF, flatKernels, cellA])).1 (by norm_num [abs_div])

/-- C13, the merge at a sign conflict.  In the first sweep over the line mesh
the vertex `1` receives `1/2` from the first segment and then `-2` from the
second; `checkSigns` would print for this pair, yet the sweep, which does not
call it, comes to its end with the mean `-3/4` at the vertex and has no other
record of the merge. -/
theorem sign_conflict_silent :
    ∃ st, initialPass lineEnv lineMesh lineVof 0 0 lineMesh.cells
        (initState lineMesh (fun _ => 7)) = .ok st ∧
      initialContributions lineEnv lineMesh lineVof 0 1 lineMesh.cells = [1 / 2, -2] ∧
      checkSigns (1 / 2) (-2) = true ∧
      st.lsArray 1 = -3 / 4 := by
  have hc : initialContributions lineEnv lineMesh lineVof 0 1 lineMesh.cells = [1 / 2, -2] := by
    norm_num [initialContributions, cellContributions, cellPairs, lineMesh, lineEnv, lineVof,
      cellA, cellB, cellC, isCutCell, initialNormal, VertexLevelSet_VOF, VertexLevelSet_LS,
      vertexValue, VOF, solveLoop, shiftVertices, segmentKernels, segmentKernel, tol,
      List.range, List.range.loop, abs_div, List.replicate, List.filter]
  have hs : checkSigns (1 / 2) (-2) = true := by
    norm_num [checkSigns, PETSC_MAX_REAL]
  obtain ⟨st, h⟩ := lineMesh_initialPass
  refine ⟨st, h, hc, hs, ?_⟩
  have hat := initialPass_at lineEnv lineMesh lineVof 0 1 lineMesh.cells 0 _ _ h
  rw [hc] at hat
  have hv := congrArg Prod.fst hat
  simp only [] at hv
  rw [hv]
  norm_num [approach3, initState]

/-- Writing `g 0, .., g (m - 1)` from the index `off` on keeps the length. -/
theorem length_foldl_set_from (g : Nat → ℚ) (off m : Nat) (buf : List ℚ) :
    ((List.range m).foldl (fun b j => b.set (off + j) (g j)) buf).length = buf.length := by
  induction m with
  | zero => simp
  | succ m ih => rw [List.range_succ, List.foldl_append]; simp [ih]

/-- Copying a normal into the buffer keeps the length of the buffer. -/
theorem length_copyNormal (dim : Nat) (n_new : List ℚ) (k : Nat) (normal : List ℚ) :
    (copyNormal dim n_new k normal).length = normal.length := by
  unfold copyNormal
  exact length_foldl_set_from (fun j => n_new.getD j 0) (k * dim) dim normal

/-- Counting the cut cells, cell by cell. -/
theorem cutCount_cons (E : Env) (vofArray : Nat → ℚ) (x : Cell) (rest : List Cell) :
    cutCount E vofArray (x :: rest) =
      (if isCutCell E.small (vofArray x.point) = true then 1 else 0) +
        cutCount E vofArray rest := by
  unfold cutCount
  rw [List.countP_cons]
  by_cases h : isCutCell E.small (vofArray x.point) = true <;> simp [h, Nat.add_comm]

/-- Counting the cut cells of two runs of cells. -/
theorem cutCount_append (E : Env) (vofArray : Nat → ℚ) (l1 l2 : List Cell) :
    cutCount E vofArray (l1 ++ l2) = cutCount E vofArray l1 + cutCount E vofArray l2 := by
  unfold cutCount
  rw [List.countP_append]

/-- Merges do not write `cutcellCount`. -/
theorem foldl_mergeVertex_cutcellCount (ps : List (Nat × ℚ)) (st : State) :
    (ps.foldl (fun st p => mergeVertex st p.1 p.2) st).cutcellCount = st.cutcellCount := by
  induction ps generalizing st with
  | nil => rfl
  | cons p t ih => rw [List.foldl_cons, ih]; rfl

/-- The vertex loop of a cell does not write `cutcellCount`. -/
theorem mergeCell_cutcellCount (verts : List Nat) (lsVertVals : List ℚ) (st : State) :
    (mergeCell verts lsVertVals st).cutcellCount = st.cutcellCount := by
  rw [mergeCell_eq_foldl, foldl_mergeVertex_cutcellCount]

/-- The first sweep adds the number of cut cells to `cutcellCount`. -/
theorem initialPass_cutcellCount (E : Env) (M : Mesh) (vofArray : Nat → ℚ) (fuel : Nat)
    (cells : List Cell) : ∀ (c : Nat) (st st' : State),
    initialPass E M vofArray fuel c cells st = .ok st' →
    st'.cutcellCount = st.cutcellCount + cutCount E vofArray cells := by
  induction cells with
  | nil =>
    intro c st st' h
    rw [initialPass] at h
    cases h
    simp [cutCount]
  | cons x rest ih =>
    intro c st st' h
    rw [initialPass] at h
    cases hx : initialCell E M vofArray fuel c x st with
    | error e => rw [hx] at h; simp at h
    | ok st1 =>
      rw [hx] at h
      rw [ih _ _ _ h, cutCount_cons]
      unfold initialCell at hx
      by_cases hcut : isCutCell E.small (vofArray x.point) = true
      · simp only [hcut, if_true] at hx ⊢
        cases hs : VertexLevelSet_VOF E.K M.dim x (vofArray x.point) (initialNormal E M.dim x)
            (some (List.replicate x.verts.length 0)) fuel with
        | error e => rw [hs] at hx; simp at hx
        | ok vals =>
          rw [hs] at hx
          simp only [Except.ok.injEq] at hx
          rw [← hx, mergeCell_cutcellCount]
          simp only []
          omega
      · simp only [hcut] at hx ⊢
        simp only [Bool.false_eq_true, if_false, Except.ok.injEq] at hx
        rw [← hx]
        simp

/-- The re-solve sweep raises `currentCutCell` by the number of cut cells and
does not write `cutcellCount`. -/
theorem resolveSweep_index (E : Env) (M : Mesh) (vofArray : Nat → ℚ) (fuel : Nat)
    (normal : List ℚ) (cells : List Cell) : ∀ (c k : Nat) (st : State) (r : State × Nat),
    resolveSweep E M vofArray fuel normal c cells k st = .ok r →
    r.2 = k + cutCount E vofArray cells ∧ r.1.cutcellCount = st.cutcellCount := by
  induction cells with
  | nil =>
    intro c k st r h
    rw [resolveSweep] at h
    cases h
    simp [cutCount]
  | cons x rest ih =>
    intro c k st r h
    rw [resolveSweep] at h
    cases hx : resolveCell E M vofArray fuel normal c x k st with
    | error e => rw [hx] at h; simp at h
    | ok r1 =>
      obtain ⟨st1, k1⟩ := r1
      rw [hx] at h
      have ih' := ih _ _ _ _ h
      rw [cutCount_cons]
      unfold resolveCell at hx
      by_cases hcut : isCutCell E.small (vofArray x.point) = true
      · simp only [hcut, if_true] at hx ⊢
        cases hs : VertexLevelSet_VOF E.K M.dim x (vofArray x.point) (readNormal M.dim normal k)
            (some (List.replicate x.verts.length 0)) fuel with
        | error e => rw [hs] at hx; simp at hx
        | ok vals =>
          rw [hs] at hx
          simp only [Except.ok.injEq, Prod.mk.injEq] at hx
          obtain ⟨hst, hk⟩ := hx
          subst hk
          subst hst
          rw [mergeCell_cutcellCount] at ih'
          exact ⟨by omega, ih'.2⟩
      · simp only [hcut] at hx ⊢
        simp only [Bool.false_eq_true, if_false, Except.ok.injEq, Prod.mk.injEq] at hx
        obtain ⟨hst, hk⟩ := hx
        subst hk
        subst hst
        simp only [Bool.false_eq_true, if_false, Nat.zero_add]
        exact ih'

/-- The normal sweep raises `currentCutCell` by the number of cut cells and
keeps the length of the buffer. -/
theorem normalSweep_index (E : Env) (M : Mesh) (vofArray : Nat → ℚ) (cells : List Cell) :
    ∀ (c : Nat) (st : State) (normal : List ℚ) (k : Nat),
    (normalSweep E M vofArray c cells st normal k).2.2 = k + cutCount E vofArray cells ∧
    (normalSweep E M vofArray c cells st normal k).2.1.length = normal.length := by
  induction cells with
  | nil => intro c st normal k; simp [normalSweep, cutCount]
  | cons x rest ih =>
    intro c st normal k
    rw [normalSweep, cutCount_cons]
    by_cases hcut : isCutCell E.small (vofArray x.point) = true
    · simp only [hcut, if_true]
      have := ih (c + 1) { st with cellMask := Function.update st.cellMask c 0 }
        (copyNormal M.dim (E.NormVector M.dim (E.DMPlexCellGradFromVertex x.point st.lsArray))
          k normal) (k + 1)
      rw [length_copyNormal] at this
      exact ⟨by omega, this.2⟩
    · simp only [hcut]
      have := ih (c + 1) st normal k
      simp only [Bool.false_eq_true, if_false]
      exact ⟨by omega, this.2⟩

/-- A loop pass does not write `cutcellCount`. -/
theorem loopPass_cutcellCount (E : Env) (M : Mesh) (vofArray : Nat → ℚ) (fuel : Nat)
    (st st' : State) (h : loopPass E M vofArray fuel st = .ok st') :
    st'.cutcellCount = st.cutcellCount := by
  obtain ⟨k, hr⟩ := loopPass_ok_resolveSweep E M vofArray fuel st st' h
  have := (resolveSweep_index E M vofArray fuel _ M.cells 0 0 _ _ hr).2
  simp only [] at this
  rw [this]
  exact (normalSweep_frame E M vofArray M.cells 0 st _ 0).2.2.2

/-- The normal sweep over two runs of cells. -/
theorem normalSweep_append (E : Env) (M : Mesh) (vofArray : Nat → ℚ) (l1 l2 : List Cell) :
    ∀ (c : Nat) (st : State) (normal : List ℚ) (k : Nat),
    normalSweep E M vofArray c (l1 ++ l2) st normal k =
      normalSweep E M vofArray (c + l1.length) l2
        (normalSweep E M vofArray c l1 st normal k).1
        (normalSweep E M vofArray c l1 st normal k).2.1
        (normalSweep E M vofArray c l1 st normal k).2.2 := by
  induction l1 with
  | nil => intro c st normal k; simp [normalSweep]
  | cons x rest ih =>
    intro c st normal k
    have hc : c + (x :: rest).length = c + 1 + rest.length := by
      simp only [List.length_cons]; omega
    rw [List.cons_append, normalSweep, normalSweep, hc]
    by_cases hcut : isCutCell E.small (vofArray x.point) = true
    · simp only [hcut, if_true]
      exact ih _ _ _ _
    · simp only [hcut]
      exact ih _ _ _ _

/-- The re-solve sweep over two runs of cells. -/
theorem resolveSweep_append (E : Env) (M : Mesh) (vofArray : Nat → ℚ) (fuel : Nat)
    (normal : List ℚ) (l1 l2 : List Cell) : ∀ (c k : Nat) (st : State),
    resolveSweep E M vofArray fuel normal c (l1 ++ l2) k st =
      (match resolveSweep E M vofArray fuel normal c l1 k st with
        | .error e => .error e
        | .ok r => resolveSweep E M vofArray fuel normal (c + l1.length) l2 r.2 r.1) := by
  induction l1 with
  | nil => intro c k st; simp [resolveSweep]
  | cons x rest ih =>
    intro c k st
    have hc : c + (x :: rest).length = c + 1 + rest.length := by
      simp only [List.length_cons]; omega
    rw [List.cons_append, resolveSweep, resolveSweep, hc]
    cases hx : resolveCell E M vofArray fuel normal c x k st with
    | error e => rfl
    | ok r1 =>
      obtain ⟨st1, k1⟩ := r1
      exact ih _ _ _

/-- A cut cell at the position after `pre` has an index below the number of cut
cells, and its slice lies inside a buffer of `dim * cutcellCount` entries. -/
theorem cutCount_pre_lt (E : Env) (vofArray : Nat → ℚ) (dim : Nat) (pre : List Cell)
    (cell : Cell) (post : List Cell)
    (hcut : isCutCell E.small (vofArray cell.point) = true) :
    cutCount E vofArray pre < cutCount E vofArray (pre ++ cell :: post) ∧
    (cutCount E vofArray pre + 1) * dim ≤ dim * cutCount E vofArray (pre ++ cell :: post) := by
  have h1 : cutCount E vofArray pre < cutCount E vofArray (pre ++ cell :: post) := by
    rw [cutCount_append, cutCount_cons, if_pos hcut]
    omega
  refine ⟨h1, ?_⟩
  rw [Nat.mul_comm dim]
  exact Nat.mul_le_mul_right dim h1

/-- A re-solve sweep that comes to its end reaches the cell after `pre` with
`currentCutCell` equal to the number of cut cells of `pre`, and re-solves it. -/
theorem resolveSweep_reaches (E : Env) (M : Mesh) (vofArray : Nat → ℚ) (fuel : Nat)
    (normal : List ℚ) (pre : List Cell) (cell : Cell) (post : List Cell) (st2 : State)
    (r : State × Nat)
    (h : resolveSweep E M vofArray fuel normal 0 (pre ++ cell :: post) 0 st2 = .ok r) :
    ∃ st3 r1, resolveSweep E M vofArray fuel normal 0 pre 0 st2 =
        .ok (st3, cutCount E vofArray pre) ∧
      resolveCell E M vofArray fuel normal pre.length cell (cutCount E vofArray pre) st3 =
        .ok r1 ∧
      resolveSweep E M vofArray fuel normal (pre.length + 1) post r1.2 r1.1 = .ok r := by
  rw [resolveSweep_append] at h
  cases hp : resolveSweep E M vofArray fuel normal 0 pre 0 st2 with
  | error e => rw [hp] at h; simp at h
  | ok r0 =>
    obtain ⟨st3, k3⟩ := r0
    rw [hp] at h
    simp only [Nat.zero_add] at h
    have hk := (resolveSweep_index E M vofArray fuel normal pre 0 0 st2 _ hp).1
    simp only [Nat.zero_add] at hk
    subst hk
    rw [resolveSweep] at h
    cases hx : resolveCell E M vofArray fuel normal pre.length cell
        (cutCount E vofArray pre) st3 with
    | error e => rw [hx] at h; simp at h
    | ok r1 =>
      obtain ⟨st4, k4⟩ := r1
      rw [hx] at h
      exact ⟨st3, (st4, k4), rfl, hx, h⟩

/-- C17. Index safety of the normal buffer.  `cutcellCount` is the number of cut
cells after the first sweep and in every state of the loop.  In a loop pass from
such a state the buffer has `dim * cutcellCount` entries throughout; both the
normal sweep and the re-solve sweep end with `currentCutCell = cutcellCount`;
and each cut cell is met in both sweeps with the same index `k`, the number of
cut cells before it, with `k < cutcellCount` and the slice
`[k * dim, (k + 1) * dim)` inside the buffer. -/
theorem normal_buffer_index_safety (E : Env) (M : Mesh) (vofArray lsArray : Nat → ℚ)
    (fuel : Nat) :
    (∀ st, initialPass E M vofArray fuel 0 M.cells (initState M lsArray) = .ok st →
      st.cutcellCount = cutCount E vofArray M.cells) ∧
    (∀ passes st, Reinitialize E M vofArray lsArray fuel passes = .ok st →
      st.cutcellCount = cutCount E vofArray M.cells) ∧
    (∀ st : State, st.cutcellCount = cutCount E vofArray M.cells →
      (passNormals E M vofArray st).length = M.dim * st.cutcellCount ∧
      (normalSweep E M vofArray 0 M.cells st
        (List.replicate (M.dim * st.cutcellCount) 0) 0).2.2 = st.cutcellCount ∧
      (∀ normal st2 r, resolveSweep E M vofArray fuel normal 0 M.cells 0 st2 = .ok r →
        r.2 = st.cutcellCount) ∧
      (∀ st', loopPass E M vofArray fuel st = .ok st' →
        st'.cutcellCount = cutCount E vofArray M.cells) ∧
      (∀ pre cell post, M.cells = pre ++ cell :: post →
        isCutCell E.small (vofArray cell.point) = true →
        cutCount E vofArray pre < st.cutcellCount ∧
        (cutCount E vofArray pre + 1) * M.dim ≤ M.dim * st.cutcellCount ∧
        (∃ st1 normal1, normal1.length = M.dim * st.cutcellCount ∧
          normalSweep E M vofArray 0 M.cells st
              (List.replicate (M.dim * st.cutcellCount) 0) 0 =
            normalSweep E M vofArray pre.length (cell :: post) st1 normal1
              (cutCount E vofArray pre)) ∧
        (∀ normal st2 r, resolveSweep E M vofArray fuel normal 0 M.cells 0 st2 = .ok r →
          ∃ st3 r1, resolveSweep E M vofArray fuel normal 0 pre 0 st2 =
              .ok (st3, cutCount E vofArray pre) ∧
            resolveCell E M vofArray fuel normal pre.length cell
              (cutCount E vofArray pre) st3 = .ok r1))) := by
  have hinit : ∀ st, initialPass E M vofArray fuel 0 M.cells (initState M lsArray) = .ok st →
      st.cutcellCount = cutCount E vofArray M.cells := by
    intro st h
    rw [initialPass_cutcellCount E M vofArray fuel M.cells 0 _ _ h]
    simp [initState]
  refine ⟨hinit, ?_, ?_⟩
  · intro passes st h
    unfold Reinitialize at h
    cases hp : initialPass E M vofArray fuel 0 M.cells (initState M lsArray) with
    | error e => rw [hp] at h; simp at h
    | ok st1 =>
      rw [hp] at h
      exact whileLoop_invariant E M vofArray fuel
        (fun s => s.cutcellCount = cutCount E vofArray M.cells)
        (fun s s' hs hl => (loopPass_cutcellCount E M vofArray fuel s s' hl).trans hs)
        passes _ _ _ _ (hinit st1 hp) h
  · intro st hst
    have hidx := normalSweep_index E M vofArray M.cells 0 st
      (List.replicate (M.dim * st.cutcellCount) 0) 0
    refine ⟨?_, ?_, ?_, ?_, ?_⟩
    · unfold passNormals
      rw [hidx.2, List.length_replicate]
    · rw [hidx.1, Nat.zero_add, hst]
    · intro normal st2 r h
      rw [(resolveSweep_index E M vofArray fuel normal M.cells 0 0 st2 r h).1, Nat.zero_add, hst]
    · intro st' h
      rw [loopPass_cutcellCount E M vofArray fuel st st' h, hst]
    · intro pre cell post hcells hcut
      have hlt := cutCount_pre_lt E vofArray M.dim pre cell post hcut
      rw [← hcells, ← hst] at hlt
      refine ⟨hlt.1, hlt.2, ?_, ?_⟩
      · have hpre := normalSweep_index E M vofArray pre 0 st
          (List.replicate (M.dim * st.cutcellCount) 0) 0
        refine ⟨(normalSweep E M vofArray 0 pre st
            (List.replicate (M.dim * st.cutcellCount) 0) 0).1,
          (normalSweep E M vofArray 0 pre st
            (List.replicate (M.dim * st.cutcellCount) 0) 0).2.1, ?_, ?_⟩
        · rw [hpre.2, List.length_replicate]
        · rw [hcells, normalSweep_append, hpre.1]
          simp only [Nat.zero_add]
      · intro normal st2 r h
        rw [hcells] at h
        obtain ⟨st3, r1, h1, h2, _⟩ :=
          resolveSweep_reaches E M vofArray fuel normal pre cell post st2 r h
        exact ⟨st3, r1, h1, h2⟩

/-- Witness for C17: in the line mesh the second segment is the cut cell with the
index `1`, below `cutcellCount = 2`. -/
theorem normal_buffer_index_safety_witness :
    ∃ st, initialPass lineEnv lineMesh lineVof 0 0 lineMesh.cells
        (initState lineMesh (fun _ => 7)) = .ok st ∧
      st.cutcellCount = cutCount lineEnv lineVof lineMesh.cells ∧
      cutCount lineEnv lineVof [cellA] < st.cutcellCount :=
  Exists.elim lineMesh_initialPass (fun st h =>
    ⟨st, h,
      (normal_buffer_index_safety lineEnv lineMesh lineVof (fun _ => 7) 0).1 st h,
      ((normal_buffer_index_safety lineEnv lineMesh lineVof (fun _ => 7) 0).2.2 st
        ((normal_buffer_index_safety lineEnv lineMesh lineVof (fun _ => 7) 0).1 st h)).2.2.2.2
        [cellA] cellB [cellC] rfl
        (by norm_num [isCutCell, lineEnv, lineVof, cellB])
        |>.1⟩)

end ablate.levelSet.Utilities

namespace ablate.mathFunctions.geom

/-- The exact test agrees with the comparison of the real square root. -/
theorem sqrtLe_iff (dist radius : ℚ) :
    sqrtLe dist radius = true ↔ Real.sqrt (dist : ℝ) ≤ (radius : ℝ) := by
  rw [Real.sqrt_le_iff]
  simp only [sqrtLe, Bool.and_eq_true, decide_eq_true_eq]
  constructor
  · rintro ⟨h1, h2⟩
    exact ⟨by exact_mod_cast h1, by exact_mod_cast h2⟩
  · rintro ⟨h1, h2⟩
    exact ⟨by exact_mod_cast h1, by exact_mod_cast h2⟩

/-- The cast of a dimension count that is not negative keeps its value. -/
theorem sizeOfInt_of_nonneg (ndims : Int) (h0 : 0 ≤ ndims) (h1 : ndims < 2 ^ 31) :
    sizeOfInt ndims = ndims.toNat := by
  unfold sizeOfInt
  rw [Int.emod_eq_of_lt h0 (by omega)]

/-- The loop of `InsideGeometry` adds up the squared coordinate differences. -/
theorem InsideGeometry_eq (S : Sphere) (xyz : List ℚ) (ndims : Int) :
    S.InsideGeometry xyz ndims =
      sqrtLe (∑ i in Finset.range (min (sizeOfInt ndims) S.center.length),
        (xyz.getD i 0 - S.center.getD i 0) ^ 2) S.radius := by
  unfold Sphere.InsideGeometry
  simp only []
  rw [ablate.levelSet.Utilities.foldl_add_eq_sum, zero_add]

/-- C19. `Sphere::InsideGeometry` for a dimension count `ndims >= 0` (an `int`):
the result is true exactly when the Euclidean distance between `xyz` and
`center` over the first `min(ndims, center.size())` coordinates is `<= radius`.
A point at distance `radius` is inside; two points that agree on these
coordinates get the same answer; for `radius >= 0` the test is
`sum of (xyz[i] - center[i])^2 <= radius^2`; for `radius < 0` no point is
inside. -/
theorem InsideGeometry_spec (S : Sphere) (xyz : List ℚ) (ndims : Int) (h0 : 0 ≤ ndims)
    (h1 : ndims < 2 ^ 31) :
    (S.InsideGeometry xyz ndims = true ↔
      Real.sqrt ((∑ i in Finset.range (min ndims.toNat S.center.length),
        (xyz.getD i 0 - S.center.getD i 0) ^ 2 : ℚ) : ℝ) ≤ (S.radius : ℝ)) ∧
    (Real.sqrt ((∑ i in Finset.range (min ndims.toNat S.center.length),
        (xyz.getD i 0 - S.center.getD i 0) ^ 2 : ℚ) : ℝ) = (S.radius : ℝ) →
      S.InsideGeometry xyz ndims = true) ∧
    (∀ xyz' : List ℚ,
      (∀ i, i < min ndims.toNat S.center.length → xyz'.getD i 0 = xyz.getD i 0) →
      S.InsideGeometry xyz' ndims = S.InsideGeometry xyz ndims) ∧
    (0 ≤ S.radius →
      (S.InsideGeometry xyz ndims = true ↔
        ∑ i in Finset.range (min ndims.toNat S.center.length),
          (xyz.getD i 0 - S.center.getD i 0) ^ 2 ≤ S.radius ^ 2)) ∧
    (S.radius < 0 → S.InsideGeometry xyz ndims = false) := by
  have hm := sizeOfInt_of_nonneg ndims h0 h1
  have hiff : S.InsideGeometry xyz ndims = true ↔
      Real.sqrt ((∑ i in Finset.range (min ndims.toNat S.center.length),
        (xyz.getD i 0 - S.center.getD i 0) ^ 2 : ℚ) : ℝ) ≤ (S.radius : ℝ) := by
    rw [InsideGeometry_eq, hm, sqrtLe_iff]
  refine ⟨hiff, ?_, ?_, ?_, ?_⟩
  · intro he
    exact hiff.mpr (le_of_eq he)
  · intro xyz' hx
    rw [InsideGeometry_eq, InsideGeometry_eq, hm]
    congr 1
    apply Finset.sum_congr rfl
    intro i hi
    rw [hx i (Finset.mem_range.mp hi)]
  · intro hr
    rw [InsideGeometry_eq, hm]
    simp [sqrtLe, hr]
  · intro hr
    rw [InsideGeometry_eq]
    simp [sqrtLe, not_le.mpr hr]

/-- Witness for C19: the unit sphere centred at `(0, 0, 0)` and the point
`(3/5, 4/5, 7)` with `ndims = 2`: the third coordinate is not read and the point
is on the surface, hence inside. -/
theorem InsideGeometry_spec_witness :
    (⟨[0, 0, 0], 1⟩ : Sphere).InsideGeometry [3 / 5, 4 / 5, 7] 2 = true :=
  ((InsideGeometry_spec ⟨[0, 0, 0], 1⟩ [3 / 5, 4 / 5, 7] 2 (by decide) (by decide)).2.2.2.1
    (by norm_num)).mpr
    (by
      have h2 : Int.toNat 2 = 2 := rfl
      rw [h2]
      norm_num [Finset.sum_range_succ])

end ablate.mathFunctions.geom
